import Mathlib

/-!
Verification development for the atlassian-cli synchronization engine.

The Python sources under src/atlassian_cli are shallowly embedded as Lean
definitions: pure string manipulation becomes functions on List Char and
String, the stateful slug registry and the filesystem become explicit
state passing, remote calls are modelled by a record of client functions,
and fallible code returns Except or Option.  Machine integers do not
occur (all counters are Python arbitrary-precision ints, embedded as Nat).

Sections:
  1. naming.py            : slugify and the per-parent slug allocator
  2. confluence/client.py : update payload construction and tree traversal
  3. sync/service.py      : ensure-remote-page, upload walk, classification
  4. local/repository.py  : path resolution, write_tree, read_tree
-/

namespace AtlassianCli

/-! ## Section 1: local/naming.py and the slug allocator of local/repository.py -/

/-- Character class of the regex [^a-z0-9] used by slugify: a character is
kept when it is a lowercase ASCII letter or an ASCII digit. -/
def isSlugChar (c : Char) : Bool :=
  ('a' ≤ c && c ≤ 'z') || ('0' ≤ c && c ≤ '9')

/-- ASCII whitespace, modelling the default str.strip of Python on the
ASCII fragment. -/
def isPySpace (c : Char) : Bool :=
  c = ' ' || c = '\t' || c = '\n' || c = '\r' || c = '\x0b' || c = '\x0c'

/-- Remove characters satisfying p from both ends of a list, modelling the
two-sided str.strip of Python. -/
def stripWhile (p : Char → Bool) (l : List Char) : List Char :=
  ((l.dropWhile p).reverse.dropWhile p).reverse

/-- Replace every maximal run of non slug characters by a single hyphen,
modelling the regex substitution NON_WORD_RE.sub of naming.py.  The flag
records whether the previous character already produced a hyphen. -/
def collapseNonWord : Bool → List Char → List Char
  | _, [] => []
  | prevSep, c :: rest =>
      if isSlugChar c then c :: collapseNonWord false rest
      else if prevSep then collapseNonWord true rest
      else '-' :: collapseNonWord true rest

/-- Default token used by slugify when the result would be empty, the
fallback parameter of naming.slugify. -/
def slugFallback : String := "page"

/-- Shallow embedding of naming.slugify: lowercase (ASCII model of
str.lower), strip whitespace, replace runs of non alphanumerics with a
hyphen, strip hyphens, fall back on the default token when empty, guard
against hidden names, and truncate to 120 characters. -/
def slugify (value : String) : String :=
  let lowered := value.data.map Char.toLower
  let stripped := stripWhile isPySpace lowered
  let collapsed := collapseNonWord false stripped
  let core := stripWhile (fun c => c = '-') collapsed
  if core.isEmpty then slugFallback
  else
    let core2 :=
      if core.head? = some '.' then
        let d := core.dropWhile (fun c => c = '.')
        if d.isEmpty then slugFallback.data else d
      else core
    String.mk (core2.take 120)

/-- Candidate name tried by the collision loop of LocalRepository at a
given counter value, the Python f-string base-counter. -/
def slugCandidate (base : String) (counter : Nat) : String :=
  base ++ "-" ++ Nat.repr counter

/-- Fuelled embedding of the while loop in LocalRepository._unique_slug:
while the current candidate is used, move to the next suffixed candidate.
The fuel is a bound on the number of loop tests; the termination proof
shows that used.length + 1 tests always suffice. -/
def findFreeSlug (used : List String) (base : String) : Nat → Nat → String → String
  | 0, _, slug => slug
  | fuel + 1, counter, slug =>
      if slug ∈ used then findFreeSlug used base fuel (counter + 1) (slugCandidate base counter)
      else slug

/-- Shallow embedding of LocalRepository._unique_slug for one parent
directory: used is the set of sibling names already allocated under that
parent, the returned pair is the chosen name together with the updated
set (the Python used.add call). -/
def uniqueSlug (title : String) (used : List String) : String × List String :=
  let base := slugify title
  let slug := findFreeSlug used base (used.length + 1) 2 base
  (slug, slug :: used)

/-- Decimal character expansion of a natural number, most significant
digit first.  This is the reference function used to relate Nat.repr to
an injective description. -/
def decChars (n : Nat) : List Char :=
  if _h : n < 10 then [Nat.digitChar n]
  else decChars (n / 10) ++ [Nat.digitChar (n % 10)]
  decreasing_by exact Nat.div_lt_self (by omega) (by omega)

/-! ## Section 2: confluence/client.py -/

/-- Body of a remote page, confluence.models.PageBody. -/
structure PageBody where
  storage : String
  representation : String
  deriving DecidableEq, Repr

/-- Full remote page payload, confluence.models.PageContent restricted to
the fields the synchronization engine reads (the ancestors list is only
used for display). -/
structure PageContent where
  id : String
  title : String
  space_key : String
  parent_id : Option String
  version : Nat
  body : PageBody
  deriving DecidableEq, Repr

/-- Truthiness of an optional string under Python: None and the empty
string are falsy.  Used wherever the source tests an Optional[str] with
if or the or operator. -/
def strOptTruthy : Option String → Bool
  | none => false
  | some s => !s.isEmpty

/-- Python expression a or b on optional strings: the first operand when
it is truthy, otherwise the second operand. -/
def pyOr (a b : Option String) : Option String :=
  if strOptTruthy a then a else b

/-- JSON payload assembled by ConfluenceClient.update_page before the PUT
request.  The ancestors field carries the single parent entry that the
source includes only when parent_id is truthy. -/
structure UpdatePayload where
  id : String
  type : String
  title : String
  space_key : String
  bodyValue : String
  bodyRepresentation : String
  versionNumber : Nat
  ancestors : List String
  deriving DecidableEq, Repr

/-- Shallow embedding of the payload construction in
ConfluenceClient.update_page: note the version field is
current_version + 1, built by the client itself. -/
def updatePagePayload (page_id title space_key storage : String)
    (current_version : Nat) (parent_id : Option String)
    (representation : String) : UpdatePayload :=
  { id := page_id
    type := "page"
    title := title
    space_key := space_key
    bodyValue := storage
    bodyRepresentation := representation
    versionNumber := current_version + 1
    ancestors := if strOptTruthy parent_id then [parent_id.getD ""] else [] }

/-- Shallow embedding of ConfluenceClient.iter_page_tree at the level of
page identifiers.  getId maps a queued identifier to the id field of the
fetched page (client.get_page composed with the id projection) and
childIds lists the ids returned by client.get_child_pages.  The FIFO
queue of the source is the explicit queue argument; the fuel bounds the
number of yields so that finite prefixes of the lazy generator can be
inspected. -/
def iterTreeIds (getId : String → String) (childIds : String → List String) :
    Nat → List String → List String
  | 0, _ => []
  | _ + 1, [] => []
  | fuel + 1, current :: rest =>
      current :: iterTreeIds getId childIds fuel (rest ++ childIds (getId current))

/-! ## Section 3: sync/service.py -/

/-- Metadata block of a local page, local.models.LocalPageMetadata. -/
structure LocalPageMetadata where
  title : String
  space_key : Option String
  confluence_id : Option String
  parent_id : Option String
  version : Option Nat
  representation : String
  deriving DecidableEq, Repr

/-- Local page tree, local.models.LocalPage.  The filesystem path is
dropped: the upload walk never branches on it and disk writes are
modelled separately in Section 4. -/
inductive LocalPage where
  | mk (metadata : LocalPageMetadata) (body : String) (children : List LocalPage)

/-- Metadata projection of a local page. -/
def LocalPage.metadata : LocalPage → LocalPageMetadata
  | .mk m _ _ => m

/-- Body projection of a local page. -/
def LocalPage.body : LocalPage → String
  | .mk _ b _ => b

/-- Children projection of a local page. -/
def LocalPage.children : LocalPage → List LocalPage
  | .mk _ _ cs => cs

/-- Node count of a local subtree, the sum the source computes with
iter_subtree when reporting processed pages. -/
def LocalPage.subtreeSize : LocalPage → Nat
  | .mk _ _ cs => 1 + ((cs.attach.map fun c => c.1.subtreeSize).foldr (· + ·) 0)
  decreasing_by
    have := List.sizeOf_lt_of_mem c.2
    simp only [LocalPage.mk.sizeOf_spec] at *
    omega

/-- Report record sync.service.SyncResult. -/
structure SyncResult where
  processed_pages : Nat
  created_pages : Nat
  updated_pages : Nat
  deriving DecidableEq, Repr

/-- Abstract Confluence client as seen by SyncService: one pure function
per REST call the upload path performs.  An arbitrary such record stands
for an arbitrary remote side. -/
structure Client where
  getPage : String → PageContent
  updatePage : (page_id title space_key storage : String) →
    (current_version : Nat) → (parent_id : Option String) →
    (representation : String) → PageContent
  ensurePage : (space_key title storage : String) →
    (parent_id : Option String) → (representation : String) → PageContent

/-- One-way text converters, sync.converters.ContentConverter at its
interface boundary. -/
structure Converter where
  markdownToStorage : String → String
  storageToMarkdown : String → String

/-- Result of SyncService._ensure_remote_page: the remote page returned
by the client, the local page after the in-place metadata and body
mutation, the number of client.get_page calls that were needed, and the
parent identifier submitted to the remote call. -/
structure EnsureOutcome where
  remote : PageContent
  page : LocalPage
  getPageCalls : Nat
  submittedParent : Option String

/-- Shallow embedding of SyncService._ensure_remote_page.  The Python
method mutates local_page.metadata in place before returning; here the
mutated page is returned alongside the remote answer.  The save_page
disk write has no observable effect on the upload control flow and is
modelled in Section 4. -/
def ensureRemotePage (client : Client) (conv : Converter) (page : LocalPage)
    (space_key : String) (parent_id : Option String) : EnsureOutcome :=
  let storage := conv.markdownToStorage page.body
  let m := page.metadata
  let parentForUpdate := pyOr parent_id m.parent_id
  let fetch : PageContent × Nat :=
    if strOptTruthy m.confluence_id then
      let cid := m.confluence_id.getD ""
      match m.version with
      | none =>
          (client.updatePage cid m.title space_key storage
            (client.getPage cid).version parentForUpdate m.representation, 1)
      | some v =>
          (client.updatePage cid m.title space_key storage
            v parentForUpdate m.representation, 0)
    else
      (client.ensurePage space_key m.title storage parentForUpdate m.representation, 0)
  let remote := fetch.1
  let m2 : LocalPageMetadata :=
    { m with
      confluence_id := some remote.id
      version := some remote.version
      space_key := if remote.space_key.isEmpty then some space_key else some remote.space_key
      parent_id := parentForUpdate }
  { remote := remote
    page := .mk m2 (conv.storageToMarkdown remote.body.storage) page.children
    getPageCalls := fetch.2
    submittedParent := parentForUpdate }

/-- Upload log: for every page visited by the upload walk, the title, the
parent identifier submitted to the remote call, the remote identifier
assigned by that call, and the logs of the children in order. -/
inductive UpLog where
  | mk (title : String) (submittedParent : Option String) (assignedId : String)
      (children : List UpLog)

/-- Submitted parent projection of an upload log node. -/
def UpLog.submittedParent : UpLog → Option String
  | .mk _ sp _ _ => sp

/-- Assigned identifier projection of an upload log node. -/
def UpLog.assignedId : UpLog → String
  | .mk _ _ aid _ => aid

/-- Children projection of an upload log node. -/
def UpLog.children : UpLog → List UpLog
  | .mk _ _ _ cs => cs

/-- Shallow embedding of SyncService._upload_subtree.  Mirrors the Python
classification exactly: the created and updated tests run on the
metadata record that _ensure_remote_page has already mutated.  Returns
the per-subtree SyncResult (processed_pages is the literal 1 of the
source) together with the upload log. -/
def uploadSubtree (client : Client) (conv : Converter) (page : LocalPage)
    (space_key : String) (parent_id : Option String) : SyncResult × UpLog :=
  let out := ensureRemotePage client conv page space_key parent_id
  let m := out.page.metadata
  let versionTruthy := match m.version with
    | none => false
    | some v => v ≠ 0
  let updatedSelf : Nat :=
    if versionTruthy = true ∧ out.remote.version > m.version.getD 0 then 1 else 0
  let createdSelf : Nat :=
    if updatedSelf = 0 ∧ strOptTruthy m.confluence_id = false then 1 else 0
  let childResults :=
    page.children.attach.map fun c =>
      uploadSubtree client conv c.1 space_key (some out.remote.id)
  (⟨1,
    createdSelf + (childResults.map fun r => r.1.created_pages).foldr (· + ·) 0,
    updatedSelf + (childResults.map fun r => r.1.updated_pages).foldr (· + ·) 0⟩,
    .mk page.metadata.title out.submittedParent out.remote.id (childResults.map (·.2)))
  termination_by sizeOf page
  decreasing_by
    have := List.sizeOf_lt_of_mem c.2
    cases page
    simp only [LocalPage.mk.sizeOf_spec, LocalPage.children] at *
    omega

/-- Shallow embedding of SyncService.upload_tree.  The caller supplied
parent identifier is preferred over the value cached in the root
metadata via the Python or operator; the root classification compares
the metadata record after the in-place mutation performed by
_ensure_remote_page, exactly as the source does. -/
def uploadTree (client : Client) (conv : Converter) (local_root : LocalPage)
    (space_key : String) (parent_page_id : Option String) : SyncResult × UpLog :=
  let resolvedParent := pyOr parent_page_id local_root.metadata.parent_id
  let out := ensureRemotePage client conv local_root space_key resolvedParent
  let m := out.page.metadata
  let versionTruthy := match m.version with
    | none => false
    | some v => v ≠ 0
  let rootUpdated : Nat :=
    if m.confluence_id = some out.remote.id then
      if versionTruthy = true ∧ out.remote.version > m.version.getD 0 then 1 else 0
    else 0
  let rootCreated : Nat :=
    if m.confluence_id = some out.remote.id then 0 else 1
  let childResults :=
    local_root.children.map fun c =>
      uploadSubtree client conv c space_key (some out.remote.id)
  (⟨local_root.subtreeSize,
    rootCreated + (childResults.map fun r => r.1.created_pages).foldr (· + ·) 0,
    rootUpdated + (childResults.map fun r => r.1.updated_pages).foldr (· + ·) 0⟩,
    .mk local_root.metadata.title out.submittedParent out.remote.id
      (childResults.map (·.2)))

/-! ## Section 4: local/repository.py -/

/-- Normalize a sequence of path components: a dot component is dropped
and a dot-dot component removes the previous component, modelling the
lexical part of Path.resolve on an absolute path. -/
def normalizeComps (comps : List String) : List String :=
  comps.foldl
    (fun acc c =>
      if c = "." then acc
      else if c = ".." then acc.dropLast
      else acc ++ [c])
    []

/-- String rendering of an absolute path from its components, the str()
of a POSIX Path: slash separated with a leading slash per component. -/
def pathString (comps : List String) : String :=
  comps.foldl (fun acc c => acc ++ "/" ++ c) ""

/-- Caller supplied path: either absolute or relative to the repository
root, mirroring the Path.is_absolute branch of resolve_page_directory. -/
inductive RawPath where
  | abs (comps : List String)
  | rel (comps : List String)
  deriving DecidableEq, Repr

/-- Abstract read-only filesystem used by resolve_page_directory: which
resolved paths exist, which are directories, and which directories
contain the page.md content file. -/
structure FsQuery where
  pathExists : List String → Bool
  isDir : List String → Bool
  hasPageFile : List String → Bool

/-- Errors surfaced by resolve_page_directory. -/
inductive ResolveError where
  | outsideRoot
  | missing
  | noPageFile
  deriving DecidableEq, Repr

/-- Shallow embedding of LocalRepository.resolve_page_directory.  The
guard is the exact string prefix test of the source
(str(candidate).startswith(str(base))), performed on the character
sequences of the two rendered paths, not a component-wise containment
test. -/
def resolvePageDirectory (fs : FsQuery) (root : List String) (raw : RawPath) :
    Except ResolveError (List String) :=
  let base := normalizeComps root
  let cand0 := match raw with
    | .abs cs => cs
    | .rel cs => base ++ cs
  let candidate := normalizeComps cand0
  if !(pathString base).data.isPrefixOf (pathString candidate).data then
    .error .outsideRoot
  else if !fs.pathExists candidate then
    .error .missing
  else
    let directory := if fs.isDir candidate then candidate else candidate.dropLast
    if fs.hasPageFile directory then .ok directory else .error .noPageFile

/-- Component-wise containment in the repository root: the meaning the
specification assigns to a path being inside the root. -/
def insideRoot (base candidate : List String) : Bool :=
  base.isPrefixOf candidate

/-- Content file written by LocalRepository._dump_page: the frontmatter
metadata block plus the converted body. -/
structure PageFile where
  title : String
  space_key : String
  confluence_id : String
  parent_id : Option String
  version : Nat
  representation : String
  body : String
  deriving DecidableEq, Repr

/-- Frontmatter dump of a remote page, LocalRepository._dump_page: the
body is the storage text passed through the storage to markdown
converter. -/
def dumpFile (conv : String → String) (page : PageContent) : PageFile :=
  { title := page.title
    space_key := page.space_key
    confluence_id := page.id
    parent_id := page.parent_id
    version := page.version
    representation := page.body.representation
    body := conv page.body.storage }

/-- Directory tree of the local repository: every directory holds exactly
one page.md content file and a list of named subdirectories.  Unlike a
real filesystem the list may syntactically repeat a name; the write_tree
invariants prove the embedded code never creates such a repeat. -/
inductive DirTree where
  | mk (file : PageFile) (children : List (String × DirTree))

/-- Content file of the directory. -/
def DirTree.file : DirTree → PageFile
  | .mk f _ => f

/-- Subdirectories of the directory. -/
def DirTree.children : DirTree → List (String × DirTree)
  | .mk _ cs => cs

/-- Replace the first child with the given name, leaving the list
unchanged when the name is absent.  Models addressing one subdirectory
of a filesystem directory. -/
def replaceChild (cs : List (String × DirTree)) (name : String)
    (f : DirTree → DirTree) : List (String × DirTree) :=
  match cs with
  | [] => []
  | c :: rest =>
      if c.1 = name then (c.1, f c.2) :: rest
      else c :: replaceChild rest name f

/-- Write a page.md file into the subdirectory named name of the
directory at path: when the name already exists the content file of that
subdirectory is overwritten, otherwise a fresh subdirectory holding only
the file is created (mkdir followed by the file write). -/
def DirTree.insertChild (t : DirTree) (path : List String) (name : String)
    (pf : PageFile) : DirTree :=
  match t, path with
  | .mk f cs, [] =>
      if cs.any (fun c => c.1 = name) then
        .mk f (replaceChild cs name (fun c => .mk pf c.children))
      else
        .mk f (cs ++ [(name, .mk pf [])])
  | .mk f cs, p :: ps =>
      .mk f (replaceChild cs p (fun c => c.insertChild ps name pf))
  termination_by path.length

/-- Subtree of the directory tree at a component path. -/
def DirTree.dirAt (t : DirTree) (path : List String) : Option DirTree :=
  match path with
  | [] => some t
  | p :: ps =>
      match t.children.find? (fun c => c.1 = p) with
      | some c => c.2.dirAt ps
      | none => none
  termination_by path.length

/-- Content file stored at a component path, when the path exists. -/
def DirTree.fileAt (t : DirTree) (path : List String) : Option PageFile :=
  (t.dirAt path).map DirTree.file

/-- Names of the subdirectories at a component path (empty for a missing
path). -/
def DirTree.namesAt (t : DirTree) (path : List String) : List String :=
  match t.dirAt path with
  | some d => d.children.map (·.1)
  | none => []

/-- All content files of the directory tree. -/
def DirTree.filesOf : DirTree → List PageFile
  | .mk f cs => f :: (cs.attach.map fun c => c.1.2.filesOf).flatten
  decreasing_by
    obtain ⟨⟨a, b⟩, hm⟩ := c
    have := List.sizeOf_lt_of_mem hm
    simp only [Prod.mk.sizeOf_spec] at this
    simp only [DirTree.mk.sizeOf_spec]
    omega

/-- All parent-child file pairs of the directory tree: one entry per
subdirectory edge, carrying the two content files. -/
def DirTree.edgesOf : DirTree → List (PageFile × PageFile)
  | .mk f cs =>
      (cs.map fun c => (f, c.2.file)) ++
        (cs.attach.map fun c => c.1.2.edgesOf).flatten
  decreasing_by
    obtain ⟨⟨a, b⟩, hm⟩ := c
    have := List.sizeOf_lt_of_mem hm
    simp only [Prod.mk.sizeOf_spec] at this
    simp only [DirTree.mk.sizeOf_spec]
    omega

/-- Association list lookup with string keys, the dict.get of the maps
built by write_tree (latest binding first). -/
def alookup {β : Type} (key : String) : List (String × β) → Option β
  | [] => none
  | e :: rest => if e.1 = key then some e.2 else alookup key rest

/-- Names already used under one parent directory, the defaultdict
reading side of the per-parent slug registry (missing entry means the
empty set). -/
def usageOf (usage : List (List String × List String)) (path : List String) :
    List String :=
  match usage.find? (fun e => e.1 = path) with
  | some e => e.2
  | none => []

/-- Update the slug registry entry of one parent directory, the
defaultdict writing side. -/
def usageSet (usage : List (List String × List String)) (path : List String)
    (names : List String) : List (List String × List String) :=
  (path, names) :: usage

/-- Write a content file at an absolute directory path of the tree: at
the root the root file is overwritten, elsewhere the file is placed in
the named subdirectory of the parent path. -/
def DirTree.writeFileAt (t : DirTree) (dir : List String) (pf : PageFile) : DirTree :=
  match dir.getLast? with
  | none => .mk pf t.children
  | some name => t.insertChild dir.dropLast name pf

/-- State threaded through the descendant loop of write_tree together
with its outcome: the directory tree, the id to directory map, the slug
registry, the chronological list of page.md writes, and the parent
identifier of the first descendant whose parent could not be located
(none when the loop completed). -/
structure WriteState where
  tree : DirTree
  idToDir : List (String × List String)
  usage : List (List String × List String)
  log : List (List String × PageFile)
  err : Option (Option String)

/-- Shallow embedding of the descendant loop of LocalRepository.write_tree.
existing is the pre-scan map from recorded remote identifier to
directory (LocalRepository._collect_existing_directories); parent lookup
consults the in-call map first and falls back to it, and a descendant
whose identifier already appears in it reuses that directory.  A parent
found in neither map raises, aborting the loop. -/
def writeTreeGo (conv : String → String) (existing : String → Option (List String)) :
    List PageContent → WriteState → WriteState
  | [], st => st
  | page :: rest, st =>
      let parentDir : Option (List String) :=
        match page.parent_id with
        | none => none
        | some pid =>
            match alookup pid st.idToDir with
            | some d => some d
            | none => existing pid
      match parentDir with
      | none => { st with err := some page.parent_id }
      | some pdir =>
          let pf := dumpFile conv page
          match existing page.id with
          | some d =>
              writeTreeGo conv existing rest
                { tree := st.tree.writeFileAt d pf
                  idToDir := (page.id, d) :: st.idToDir
                  usage := st.usage
                  log := st.log ++ [(d, pf)]
                  err := none }
          | none =>
              let alloc := uniqueSlug page.title (usageOf st.usage pdir)
              writeTreeGo conv existing rest
                { tree := st.tree.insertChild pdir alloc.1 pf
                  idToDir := (page.id, pdir ++ [alloc.1]) :: st.idToDir
                  usage := usageSet st.usage pdir alloc.2
                  log := st.log ++ [(pdir ++ [alloc.1], pf)]
                  err := none }

/-- Shallow embedding of LocalRepository.write_tree on a repository whose
root directory content is described by existing and usage0 (both empty
for a freshly initialized repository): the root page file is written at
the repository root, then the descendants are processed in order. -/
def writeTree (conv : String → String) (existing : String → Option (List String))
    (usage0 : List (List String × List String)) (root_page : PageContent)
    (descendants : List PageContent) : WriteState :=
  let pf := dumpFile conv root_page
  writeTreeGo conv existing descendants
    { tree := .mk pf []
      idToDir := [(root_page.id, [])]
      usage := usage0
      log := [([], pf)]
      err := none }

/-- Metadata record parsed back by LocalRepository._read_directory from a
dumped content file.  The frontmatter roundtrip is lossless for the
fields that _dump_page wrote: the identifier and version come back
through _as_optional_str and _as_optional_int as present values. -/
def metaOfFile (pf : PageFile) : LocalPageMetadata :=
  { title := pf.title
    space_key := some pf.space_key
    confluence_id := some pf.confluence_id
    parent_id := pf.parent_id
    version := some pf.version
    representation := pf.representation }

/-- Subdirectories in the lexicographic visit order of
LocalRepository.iter_page_directories (sorted by name). -/
def childrenSorted (cs : List (String × DirTree)) : List (String × DirTree) :=
  cs.mergeSort (fun a b => decide (a.1 ≤ b.1))

/-- Shallow embedding of LocalRepository.read_tree and _read_directory:
load the content file of the directory and recursively load every
subdirectory, in lexicographic order, as a child page. -/
def readDirectory (t : DirTree) : LocalPage :=
  match t with
  | .mk f cs =>
      .mk (metaOfFile f) f.body
        ((childrenSorted cs).attach.map fun c => readDirectory c.1.2)
  decreasing_by
    obtain ⟨⟨a, b⟩, hm⟩ := c
    rename_i cs0
    have hmem : (a, b) ∈ cs0 := by
      have hperm := List.mergeSort_perm cs0 (fun a b => decide (a.1 ≤ b.1))
      exact hperm.mem_iff.mp hm
    have := List.sizeOf_lt_of_mem hmem
    simp only [Prod.mk.sizeOf_spec] at this
    simp only [DirTree.mk.sizeOf_spec]
    omega

/-- Identification record of a local page node: cached remote
identifier, title and body. -/
def LocalPage.nodes : LocalPage → List (Option String × String × String)
  | .mk m b cs =>
      (m.confluence_id, m.title, b) :: (cs.attach.map fun c => c.1.nodes).flatten
  decreasing_by
    have := List.sizeOf_lt_of_mem c.2
    simp only [LocalPage.mk.sizeOf_spec] at *
    omega

/-- Structural parent-child metadata pairs of a local page tree. -/
def LocalPage.edges : LocalPage → List (LocalPageMetadata × LocalPageMetadata)
  | .mk m _ cs =>
      (cs.map fun c => (m, c.metadata)) ++ (cs.attach.map fun c => c.1.edges).flatten
  decreasing_by
    have := List.sizeOf_lt_of_mem c.2
    simp only [LocalPage.mk.sizeOf_spec] at *
    omega

/-- Identification record of a remote page as it will read back from
disk: identifier, title, and the body passed through the storage to
markdown converter. -/
def pageRecord (conv : String → String) (p : PageContent) :
    Option String × String × String :=
  (some p.id, p.title, conv p.body.storage)

/-- Identification record of a dumped content file. -/
def fileRecord (pf : PageFile) : Option String × String × String :=
  (some pf.confluence_id, pf.title, pf.body)

/-- Invariant carried through the descendant loop of write_tree on an
initially empty repository: the error is unset, the root content file is
unchanged, every binding of the id map points at a directory whose
content file carries the mapped identifier, the id map keys are exactly
the identifiers of the pages written so far, the content files of the
tree are exactly the dumps of the written pages, every directory edge
agrees with the declared parent identifier of the child file, and the
slug registry dominates the subdirectory names of every directory. -/
structure WtInv (conv : String → String) (rootPf : PageFile)
    (written : List PageContent) (st : WriteState) : Prop where
  err_none : st.err = none
  root_file : st.tree.file = rootPf
  idd : ∀ pid path, (pid, path) ∈ st.idToDir →
    ∃ pf, st.tree.fileAt path = some pf ∧ pf.confluence_id = pid
  keys : ∀ pid, (alookup pid st.idToDir).isSome = true ↔ pid ∈ written.map (·.id)
  files : st.tree.filesOf.Perm (written.map (dumpFile conv))
  edges : ∀ e ∈ st.tree.edgesOf, e.2.parent_id = some e.1.confluence_id
  names : ∀ q nm, nm ∈ st.tree.namesAt q → nm ∈ usageOf st.usage q

/-! ## Auxiliary predicates, induction principles and concrete fixtures -/

/-- Induction principle for local page trees that provides the inductive
hypothesis for every member of the children list. -/
def LocalPage.my_ind (motive : LocalPage → Prop)
    (h : ∀ m b cs, (∀ c ∈ cs, motive c) → motive (.mk m b cs)) :
    ∀ p, motive p
  | .mk m b cs => h m b cs (fun c hc => LocalPage.my_ind motive h c)
  termination_by p => sizeOf p
  decreasing_by
    have := List.sizeOf_lt_of_mem hc
    simp only [LocalPage.mk.sizeOf_spec]
    omega

/-- Induction principle for directory trees that provides the inductive
hypothesis for every named subdirectory. -/
def DirTree.my_ind (motive : DirTree → Prop)
    (h : ∀ f cs, (∀ c ∈ cs, motive c.2) → motive (.mk f cs)) :
    ∀ t, motive t
  | .mk f cs => h f cs (fun c hc => DirTree.my_ind motive h c.2)
  termination_by t => sizeOf t
  decreasing_by
    have := List.sizeOf_lt_of_mem hc
    obtain ⟨a, b⟩ := c
    simp only [Prod.mk.sizeOf_spec] at this
    simp only [DirTree.mk.sizeOf_spec]
    omega

/-- A client whose create and update answers always carry a nonempty
remote identifier, the behaviour of the real Confluence API (identifiers
are nonempty decimal strings). -/
def ClientIdsNonempty (client : Client) : Prop :=
  (∀ a b c d e f g, (client.updatePage a b c d e f g).id ≠ "") ∧
  (∀ a b c d e, (client.ensurePage a b c d e).id ≠ "")

/-- Structural consistency of an upload log: every child call submitted
exactly the remote identifier assigned to its parent in this pass. -/
inductive ParentsLinked : UpLog → Prop
  | mk : ∀ (title : String) (sp : Option String) (aid : String) (cs : List UpLog),
      (∀ c ∈ cs, c.submittedParent = some aid) →
      (∀ c ∈ cs, ParentsLinked c) →
      ParentsLinked (.mk title sp aid cs)

/-- Concrete child listing used as a witness remote tree: the root r has
children a and b, and every other page is a leaf. -/
def exChildIds : String → List String :=
  fun s => if s = "r" then ["a", "b"] else []

/-- Identity converter pair used in the witnesses. -/
def exConv : Converter :=
  { markdownToStorage := fun s => s, storageToMarkdown := fun s => s }

/-- Remote page fixture with a given identifier and version. -/
def exRemote (i : String) (v : Nat) : PageContent :=
  { id := i, title := "T", space_key := "SP", parent_id := none, version := v
    body := { storage := "b", representation := "storage" } }

/-- Client fixture: updates echo the page identifier back (guarding
against the empty string) and increment the version, creations assign
the identifier 100 at version 1. -/
def exClient : Client :=
  { getPage := fun cid => exRemote cid 7
    updatePage := fun pid _ _ _ cv _ _ => exRemote (if pid = "" then "100" else pid) (cv + 1)
    ensurePage := fun _ _ _ _ _ => exRemote "100" 1 }

/-- Remote page fixture with a declared parent identifier. -/
def exRemoteChild (i : String) (pid : String) : PageContent :=
  { id := i, title := "T", space_key := "SP", parent_id := some pid, version := 1
    body := { storage := "b", representation := "storage" } }

/-- Metadata of a freshly created local page that was never synced. -/
def exMetaFresh : LocalPageMetadata :=
  { title := "T", space_key := none, confluence_id := none, parent_id := none
    version := none, representation := "storage" }

/-- Fresh local leaf page. -/
def exPageFresh : LocalPage := .mk exMetaFresh "body" []

/-- Metadata carrying a remote identifier but no known version. -/
def exMetaWithId : LocalPageMetadata :=
  { title := "T", space_key := none, confluence_id := some "55", parent_id := none
    version := none, representation := "storage" }

/-- Local leaf page pointing at an existing remote page of unknown
version. -/
def exPageWithId : LocalPage := .mk exMetaWithId "body" []

/-- Metadata carrying a remote identifier and a known version. -/
def exMetaWithVer : LocalPageMetadata :=
  { title := "T", space_key := none, confluence_id := some "55", parent_id := none
    version := some 3, representation := "storage" }

/-- Local leaf page with fully known remote identity. -/
def exPageWithVer : LocalPage := .mk exMetaWithVer "body" []

/-- Decidable equality of resolution outcomes, used to evaluate
resolve_page_directory on concrete inputs. -/
instance : DecidableEq (Except ResolveError (List String)) :=
  fun a b =>
    match a, b with
    | .ok x, .ok y =>
        if h : x = y then .isTrue (by rw [h]) else .isFalse (by simp [h])
    | .error x, .error y =>
        if h : x = y then .isTrue (by rw [h]) else .isFalse (by simp [h])
    | .ok _, .error _ => .isFalse (by simp)
    | .error _, .ok _ => .isFalse (by simp)

/-- Filesystem fixture in which every path exists, is a directory, and
holds a page.md file. -/
def exFsAll : FsQuery :=
  { pathExists := fun _ => true, isDir := fun _ => true, hasPageFile := fun _ => true }

/-- Local tree fixture root, A and B chained for the parent propagation
witness, with stale cached parent identifiers on purpose. -/
def exTreeRootAB : LocalPage :=
  .mk { title := "root", space_key := none, confluence_id := none
        parent_id := some "stale-root-parent", version := none
        representation := "storage" } "r"
    [.mk { title := "A", space_key := none, confluence_id := none
           parent_id := some "stale-a-parent", version := none
           representation := "storage" } "a"
      [.mk { title := "B", space_key := none, confluence_id := none
             parent_id := some "stale-b-parent", version := none
             representation := "storage" } "b" []]]

/-! ## Helper lemmas: decimal printing is injective -/

theorem decChars_ne_nil (n : Nat) : decChars n ≠ [] := by
  rw [decChars]
  split <;> simp

theorem digitChar_inj {a b : Nat} (ha : a < 10) (hb : b < 10)
    (h : Nat.digitChar a = Nat.digitChar b) : a = b := by
  interval_cases a <;> interval_cases b <;> revert h <;> decide

theorem toDigitsCore_eq_decChars :
    ∀ (fuel n : Nat) (acc : List Char), n < 10 ^ (fuel + 1) →
      Nat.toDigitsCore 10 (fuel + 1) n acc = decChars n ++ acc := by
  intro fuel
  induction fuel with
  | zero =>
      intro n acc h
      have hn : n < 10 := by simpa using h
      have hdiv : n / 10 = 0 := Nat.div_eq_of_lt hn
      rw [decChars]
      simp [Nat.toDigitsCore, hdiv, hn, Nat.mod_eq_of_lt hn]
  | succ f ih =>
      intro n acc h
      by_cases hdiv : n / 10 = 0
      · have hn : n < 10 := (Nat.div_eq_zero_iff (by norm_num)).mp hdiv
        rw [decChars]
        simp [Nat.toDigitsCore, hdiv, hn, Nat.mod_eq_of_lt hn]
      · have hlt : n / 10 < 10 ^ (f + 1) := by
          rw [Nat.div_lt_iff_lt_mul (by norm_num : (0:Nat) < 10)]
          calc n < 10 ^ (f + 1 + 1) := h
            _ = 10 ^ (f + 1) * 10 := by ring
        have hge : ¬ n < 10 := fun hn => hdiv (Nat.div_eq_of_lt hn)
        have hstep : Nat.toDigitsCore 10 (f + 1 + 1) n acc =
            Nat.toDigitsCore 10 (f + 1) (n / 10) (Nat.digitChar (n % 10) :: acc) := by
          simp [Nat.toDigitsCore, hdiv]
        rw [hstep, ih (n / 10) _ hlt]
        rw [show decChars n = decChars (n / 10) ++ [Nat.digitChar (n % 10)] by
          rw [decChars]; simp [hge]]
        simp

theorem repr_eq_decChars (n : Nat) : Nat.repr n = (decChars n).asString := by
  have h : n < 10 ^ (n + 1) :=
    lt_of_lt_of_le (Nat.lt_pow_self (by norm_num) n)
      (Nat.pow_le_pow_right (by norm_num) (Nat.le_succ n))
  show (Nat.toDigits 10 n).asString = _
  rw [show Nat.toDigits 10 n = Nat.toDigitsCore 10 (n + 1) n [] from rfl]
  rw [toDigitsCore_eq_decChars n n [] h]
  simp

theorem decChars_lt {n : Nat} (h : n < 10) : decChars n = [Nat.digitChar n] := by
  rw [decChars]
  simp [h]

theorem decChars_ge {n : Nat} (h : ¬ n < 10) :
    decChars n = decChars (n / 10) ++ [Nat.digitChar (n % 10)] := by
  conv_lhs => rw [decChars]
  simp [h]

theorem decChars_injective : ∀ m n : Nat, decChars m = decChars n → m = n := by
  intro m
  induction m using Nat.strong_induction_on with
  | _ m ih =>
    intro n h
    by_cases hm : m < 10 <;> by_cases hn : n < 10
    · rw [decChars_lt hm, decChars_lt hn] at h
      simp at h
      exact digitChar_inj hm hn h
    · exfalso
      rw [decChars_lt hm, decChars_ge hn] at h
      have hlen := congrArg List.length h
      simp at hlen
      have := decChars_ne_nil (n / 10)
      cases hd : decChars (n / 10) with
      | nil => exact this hd
      | cons a l => rw [hd] at hlen; simp at hlen
    · exfalso
      rw [decChars_ge hm, decChars_lt hn] at h
      have hlen := congrArg List.length h
      simp at hlen
      have := decChars_ne_nil (m / 10)
      cases hd : decChars (m / 10) with
      | nil => exact this hd
      | cons a l => rw [hd] at hlen; simp at hlen
    · rw [decChars_ge hm, decChars_ge hn] at h
      have hlen : (decChars (m / 10)).length = (decChars (n / 10)).length := by
        have := congrArg List.length h
        simp at this
        omega
      obtain ⟨h1, h2⟩ := List.append_inj h hlen
      have hdiv : m / 10 = n / 10 :=
        ih (m / 10) (Nat.div_lt_self (by omega) (by omega)) _ h1
      have hmod : m % 10 = n % 10 :=
        digitChar_inj (Nat.mod_lt _ (by norm_num)) (Nat.mod_lt _ (by norm_num))
          (by simpa using h2)
      omega

theorem nat_repr_injective {m n : Nat} (h : Nat.repr m = Nat.repr n) : m = n := by
  rw [repr_eq_decChars, repr_eq_decChars] at h
  apply decChars_injective
  have hd := congrArg String.data h
  simpa [List.asString] using hd

theorem repr_length_pos (n : Nat) : 0 < (Nat.repr n).length := by
  rw [repr_eq_decChars]
  have := decChars_ne_nil n
  cases hd : decChars n with
  | nil => exact absurd hd this
  | cons a l => simp [List.asString, hd, String.length]

/-! ## Helper lemmas: the slug collision loop -/

theorem slugCandidate_injective (base : String) {i j : Nat}
    (h : slugCandidate base i = slugCandidate base j) : i = j := by
  unfold slugCandidate at h
  have hd := congrArg String.data h
  simp only [String.data_append, List.append_assoc] at hd
  have h2 := List.append_cancel_left (List.append_cancel_left hd)
  apply nat_repr_injective
  cases hri : Nat.repr i with
  | mk l =>
      cases hrj : Nat.repr j with
      | mk l2 =>
          rw [hri, hrj] at h2
          exact congrArg String.mk h2

theorem slugCandidate_ne_base (base : String) (k : Nat) :
    slugCandidate base k ≠ base := by
  intro h
  have hl := congrArg String.length h
  unfold slugCandidate at hl
  simp only [String.length_append] at hl
  have h1 : ("-" : String).length = 1 := rfl
  have := repr_length_pos k
  omega

theorem findFreeSlug_succ (used : List String) (base : String)
    (f counter : Nat) (slug : String) :
    findFreeSlug used base (f + 1) counter slug =
      if slug ∈ used then
        findFreeSlug used base f (counter + 1) (slugCandidate base counter)
      else slug := rfl

theorem findFreeSlug_spec (used : List String) (base : String) :
    ∀ (f counter : Nat) (slug : String),
      ¬ (slug :: (List.range' counter f).map (slugCandidate base)) ⊆ used →
      findFreeSlug used base (f + 1) counter slug ∉ used := by
  intro f
  induction f with
  | zero =>
      intro counter slug h
      have hs : slug ∉ used := by
        intro hmem
        exact h (by simpa using hmem)
      rw [findFreeSlug_succ]
      simp [hs]
  | succ f ih =>
      intro counter slug h
      by_cases hs : slug ∈ used
      · rw [findFreeSlug_succ]
        simp only [hs, if_true]
        apply ih
        intro hsub
        apply h
        intro x hx
        rcases List.mem_cons.mp hx with hx | hx
        · exact hx ▸ hs
        · rw [List.range'_succ] at hx
          simp only [List.map_cons] at hx
          rcases List.mem_cons.mp hx with hx | hx
          · exact hsub (by simp [hx])
          · exact hsub (by simp only [List.mem_cons]; right; exact hx)
      · rw [findFreeSlug_succ]
        simp [hs]

/-- Key property of the collision loop: the returned slug is not among
the used sibling names, for every used set and every title. -/
theorem uniqueSlug_fresh (title : String) (used : List String) :
    (uniqueSlug title used).1 ∉ used := by
  unfold uniqueSlug
  simp only
  apply findFreeSlug_spec
  intro hsub
  have hnodup : (slugify title ::
      (List.range' 2 used.length).map (slugCandidate (slugify title))).Nodup := by
    rw [List.nodup_cons]
    constructor
    · intro hmem
      simp only [List.mem_map] at hmem
      obtain ⟨k, _, he⟩ := hmem
      exact slugCandidate_ne_base _ k he
    · exact List.Nodup.map (fun a b => slugCandidate_injective _) (List.nodup_range' _ _)
  have hle := (hnodup.subperm hsub).length_le
  simp at hle

/-! ## Claim theorems -/

/-- C10: for every title string and every finite set of sibling directory
names already allocated under a parent, the embedded _unique_slug loop
terminates (it is a total function whose fuel provably suffices),
returns a name not in the set, records the returned name in the set, and
therefore directory names allocated under one parent are pairwise
distinct. -/
theorem c10_unique_slug_allocation (title : String) (used : List String) :
    (uniqueSlug title used).1 ∉ used ∧
    (uniqueSlug title used).2 = (uniqueSlug title used).1 :: used ∧
    (∀ title2 : String,
      (uniqueSlug title2 ((uniqueSlug title used).2)).1 ≠ (uniqueSlug title used).1) := by
  refine ⟨uniqueSlug_fresh title used, rfl, ?_⟩
  intro title2 h
  have hfresh := uniqueSlug_fresh title2 ((uniqueSlug title used).2)
  rw [h] at hfresh
  exact hfresh (by simp [uniqueSlug])

theorem stripWhile_subset (p : Char → Bool) (l : List Char) :
    stripWhile p l ⊆ l := by
  intro c hc
  unfold stripWhile at hc
  rw [List.mem_reverse] at hc
  have h1 := (List.dropWhile_sublist (l := (l.dropWhile p).reverse) p).subset hc
  rw [List.mem_reverse] at h1
  exact (List.dropWhile_sublist p).subset h1

theorem collapseNonWord_chars :
    ∀ (l : List Char) (b : Bool), ∀ c ∈ collapseNonWord b l,
      isSlugChar c = true ∨ c = '-' := by
  intro l
  induction l with
  | nil => intro b c hc; simp [collapseNonWord] at hc
  | cons a rest ih =>
      intro b c hc
      unfold collapseNonWord at hc
      by_cases ha : isSlugChar a
      · rw [if_pos ha] at hc
        rcases List.mem_cons.mp hc with h | h
        · exact Or.inl (h ▸ ha)
        · exact ih false c h
      · rw [if_neg ha] at hc
        by_cases hb : b
        · rw [if_pos hb] at hc
          exact ih true c hc
        · rw [if_neg hb] at hc
          rcases List.mem_cons.mp hc with h | h
          · exact Or.inr h
          · exact ih true c h

theorem slugify_chars (title : String) :
    ∀ c ∈ (slugify title).data, isSlugChar c = true ∨ c = '-' := by
  intro c hc
  unfold slugify at hc
  set lowered := title.data.map Char.toLower with hlow
  set stripped := stripWhile isPySpace lowered with hstr
  set collapsed := collapseNonWord false stripped with hcol
  set core := stripWhile (fun c => c = '-') collapsed with hcore
  have hfall : ∀ x, x ∈ slugFallback.data → isSlugChar x = true ∨ x = '-' := by
    decide
  by_cases hemp : core.isEmpty
  · rw [if_pos hemp] at hc
    exact hfall c hc
  · rw [if_neg hemp] at hc
    simp only [String.mk] at hc
    have hcore_chars : ∀ x ∈ core, isSlugChar x = true ∨ x = '-' := by
      intro x hx
      exact collapseNonWord_chars stripped false x (stripWhile_subset _ _ hx)
    by_cases hdot : core.head? = some '.'
    · rw [if_pos hdot] at hc
      by_cases hde : (core.dropWhile (fun c => c = '.')).isEmpty
      · rw [if_pos hde] at hc
        exact hfall c (List.take_subset _ _ hc)
      · rw [if_neg hde] at hc
        have h1 := List.take_subset _ _ hc
        exact hcore_chars c ((List.dropWhile_sublist _).subset h1)
    · rw [if_neg hdot] at hc
      exact hcore_chars c (List.take_subset _ _ hc)

theorem slugify_length_le (title : String) : (slugify title).length ≤ 120 := by
  unfold slugify
  set lowered := title.data.map Char.toLower with hlow
  set stripped := stripWhile isPySpace lowered with hstr
  set collapsed := collapseNonWord false stripped with hcol
  set core := stripWhile (fun c => c = '-') collapsed with hcore
  have htake : ∀ l : List Char, (String.mk (l.take 120)).length ≤ 120 := by
    intro l
    show (l.take 120).length ≤ 120
    rw [List.length_take]
    omega
  by_cases hemp : core.isEmpty
  · rw [if_pos hemp]
    decide
  · rw [if_neg hemp]
    exact htake _

/-- C6 counterexample: a title of 120 letters a slugifies to itself, and
the second sibling with that title receives the allocated directory name
of 122 characters, exceeding the stated bound of 120. -/
theorem c6_counterexample :
    ¬ ((uniqueSlug (String.mk (List.replicate 120 'a'))
        ((uniqueSlug (String.mk (List.replicate 120 'a')) []).2)).1.length ≤ 120) := by
  set_option maxRecDepth 4000 in decide

/-- C6 amended: every slugify result is a lowercase ASCII slug of at most
120 characters (hyphen separated, nonempty, with the default token for
degenerate titles), and collision suffixes are appended after the
truncation, so the sibling chain for the title Release Notes is
release-notes, release-notes-2, release-notes-3, tracked per parent
used-name set; a suffixed name may exceed 120 characters. -/
theorem c6_slug_allocation_amended :
    (∀ title : String, (slugify title).length ≤ 120) ∧
    (∀ title : String, ∀ c ∈ (slugify title).data, isSlugChar c = true ∨ c = '-') ∧
    slugify "" = slugFallback ∧
    (uniqueSlug "Release Notes" []).1 = "release-notes" ∧
    (uniqueSlug "Release Notes" ((uniqueSlug "Release Notes" []).2)).1 =
      "release-notes-2" ∧
    (uniqueSlug "Release Notes"
        ((uniqueSlug "Release Notes" ((uniqueSlug "Release Notes" []).2)).2)).1 =
      "release-notes-3" := by
  refine ⟨slugify_length_le, slugify_chars, by decide, by decide, by decide, by decide⟩

/-- C6 witness: the amended statement applied at the concrete title Ab
and its first slug character. -/
theorem c6_witness :
    isSlugChar 'a' = true ∨ 'a' = '-' :=
  c6_slug_allocation_amended.2.1 "Ab" 'a' (by decide)

/-- C3 counterexample: updating with a believed-current version of 3
produces a payload whose version number is 4, not 3 — the client itself
performs the increment when forming the request. -/
theorem c3_counterexample :
    (updatePagePayload "123" "T" "SPACE" "body" 3 none "storage").versionNumber ≠ 3 := by
  decide

/-- C3 amended: for every update of an existing remote page the client
submits current version plus one as the new version number; the remote
then accepts or rejects that proposed number. -/
theorem c3_update_version_amended (page_id title space_key storage : String)
    (current_version : Nat) (parent_id : Option String) (rep : String) :
    (updatePagePayload page_id title space_key storage current_version
      parent_id rep).versionNumber = current_version + 1 := rfl

theorem iterTreeIds_nil (g : String → String) (ch : String → List String) (f : Nat) :
    iterTreeIds g ch f [] = [] := by
  cases f <;> rfl

theorem iterTreeIds_cons (g : String → String) (ch : String → List String)
    (f : Nat) (cur : String) (rest : List String) :
    iterTreeIds g ch (f + 1) (cur :: rest) =
      cur :: iterTreeIds g ch f (rest ++ ch (g cur)) := rfl

/-- BFS invariant: when every identifier waiting in the queue is a child
of an already yielded page (collected in done), every later yield is a
child either of a done page or of an earlier yield. -/
theorem iterTreeIds_parent_invariant (g : String → String) (ch : String → List String) :
    ∀ (fuel : Nat) (queue done : List String),
      (∀ x ∈ queue, ∃ p ∈ done, x ∈ ch (g p)) →
      ∀ (i : Nat) (h : i < (iterTreeIds g ch fuel queue).length),
        ∃ p, (p ∈ done ∨ ∃ j, ∃ hj : j < (iterTreeIds g ch fuel queue).length,
              j < i ∧ p = (iterTreeIds g ch fuel queue).get ⟨j, hj⟩) ∧
          (iterTreeIds g ch fuel queue).get ⟨i, h⟩ ∈ ch (g p) := by
  intro fuel
  induction fuel with
  | zero =>
      intro queue done hq i h
      simp [iterTreeIds] at h
  | succ f ih =>
      intro queue done hq i h
      cases queue with
      | nil => rw [iterTreeIds_nil] at h; simp at h
      | cons cur rest =>
          have hlen : i < (cur :: iterTreeIds g ch f (rest ++ ch (g cur))).length := h
          suffices hS : ∃ p,
              (p ∈ done ∨ ∃ j,
                ∃ hj : j < (cur :: iterTreeIds g ch f (rest ++ ch (g cur))).length,
                  j < i ∧ p = (cur :: iterTreeIds g ch f (rest ++ ch (g cur))).get ⟨j, hj⟩) ∧
              (cur :: iterTreeIds g ch f (rest ++ ch (g cur))).get ⟨i, hlen⟩ ∈ ch (g p) by
            exact hS
          cases i with
          | zero =>
              obtain ⟨p, hp, hmem⟩ := hq cur (List.mem_cons_self _ _)
              exact ⟨p, Or.inl hp, by simpa using hmem⟩
          | succ k =>
              have hk : k < (iterTreeIds g ch f (rest ++ ch (g cur))).length := by
                simpa using hlen
              have hq' : ∀ x ∈ rest ++ ch (g cur), ∃ p ∈ done ++ [cur], x ∈ ch (g p) := by
                intro x hx
                rcases List.mem_append.mp hx with hx | hx
                · obtain ⟨p, hp, hm⟩ := hq x (List.mem_cons_of_mem _ hx)
                  exact ⟨p, List.mem_append.mpr (Or.inl hp), hm⟩
                · exact ⟨cur, List.mem_append.mpr (Or.inr (by simp)), hx⟩
              obtain ⟨p, hp, hmem⟩ := ih (rest ++ ch (g cur)) (done ++ [cur]) hq' k hk
              refine ⟨p, ?_, by simpa using hmem⟩
              rcases hp with hp | ⟨j, hj, hjk, hpj⟩
              · rcases List.mem_append.mp hp with hp | hp
                · exact Or.inl hp
                · right
                  refine ⟨0, by simp, Nat.succ_pos k, ?_⟩
                  simp at hp
                  simp [hp]
              · right
                refine ⟨j + 1, by simpa using hj, Nat.succ_lt_succ hjk, ?_⟩
                simpa using hpj

/-- C4: the embedded iter_page_tree yields the root first (index 0), and
for every later index i there is a strictly earlier index j such that
the page yielded at i is among the children listed for the page yielded
at j; dequeued children are enqueued FIFO by construction of the queue
argument.  The statement holds for every fuel bound, hence for every
finite prefix of the lazy generator. -/
theorem c4_iter_page_tree_bfs (g : String → String) (ch : String → List String)
    (fuel : Nat) (root : String) :
    (∀ h0 : 0 < (iterTreeIds g ch fuel [root]).length,
        (iterTreeIds g ch fuel [root]).get ⟨0, h0⟩ = root) ∧
    (∀ (i : Nat), 0 < i → ∀ h : i < (iterTreeIds g ch fuel [root]).length,
        ∃ j, ∃ hj : j < (iterTreeIds g ch fuel [root]).length, j < i ∧
          (iterTreeIds g ch fuel [root]).get ⟨i, h⟩ ∈
            ch (g ((iterTreeIds g ch fuel [root]).get ⟨j, hj⟩))) := by
  constructor
  · intro h0
    cases fuel with
    | zero => simp [iterTreeIds] at h0
    | succ f => rfl
  · intro i hi h
    cases fuel with
    | zero => simp [iterTreeIds] at h
    | succ f =>
        cases i with
        | zero => omega
        | succ k =>
            have hlen : k + 1 < (root :: iterTreeIds g ch f ([] ++ ch (g root))).length := h
            suffices hS : ∃ j,
                ∃ hj : j < (root :: iterTreeIds g ch f ([] ++ ch (g root))).length,
                  j < k + 1 ∧
                  (root :: iterTreeIds g ch f ([] ++ ch (g root))).get ⟨k + 1, hlen⟩ ∈
                    ch (g ((root :: iterTreeIds g ch f ([] ++ ch (g root))).get ⟨j, hj⟩)) by
              exact hS
            have hk : k < (iterTreeIds g ch f ([] ++ ch (g root))).length := by
              simpa using hlen
            have hq : ∀ x ∈ [] ++ ch (g root), ∃ p ∈ [root], x ∈ ch (g p) := by
              intro x hx
              exact ⟨root, by simp, by simpa using hx⟩
            obtain ⟨p, hp, hmem⟩ :=
              iterTreeIds_parent_invariant g ch f ([] ++ ch (g root)) [root] hq k hk
            have hget : (root :: iterTreeIds g ch f ([] ++ ch (g root))).get ⟨k + 1, hlen⟩ =
                (iterTreeIds g ch f ([] ++ ch (g root))).get ⟨k, hk⟩ := rfl
            rcases hp with hp | ⟨j, hj, hjk, hpj⟩
            · simp at hp
              subst hp
              exact ⟨0, by simp, Nat.succ_pos k, hmem⟩
            · subst hpj
              exact ⟨j + 1, by simpa using hj, Nat.succ_lt_succ hjk, hmem⟩

/-- C4 witness: on the concrete remote tree with root r and children a
and b, the page yielded at index 1 is a child of the page yielded at
index 0. -/
theorem c4_witness :
    ∃ j, ∃ hj : j < (iterTreeIds id exChildIds 4 ["r"]).length, j < 1 ∧
      (iterTreeIds id exChildIds 4 ["r"]).get ⟨1, by decide⟩ ∈
        exChildIds (id ((iterTreeIds id exChildIds 4 ["r"]).get ⟨j, hj⟩)) :=
  (c4_iter_page_tree_bfs id exChildIds 4 "r").2 1 (by decide) (by decide)

theorem strOptTruthy_some {s : String} (h : s ≠ "") :
    strOptTruthy (some s) = true := by
  have he : s.isEmpty = false := by
    cases he : s.isEmpty
    · rfl
    · exact absurd ((String.isEmpty_iff s).mp he) h
  simp [strOptTruthy, he]

theorem pyOr_some {s : String} (h : s ≠ "") (b : Option String) :
    pyOr (some s) b = some s := by
  simp [pyOr, strOptTruthy_some h]

/-- C9: during upload, a page whose metadata carries a truthy remote
identifier but no version triggers exactly one client.get_page fetch to
learn the current version; a page whose version is known locally, and a
page with no identifier at all, trigger none. -/
theorem c9_version_fetch (client : Client) (conv : Converter) (page : LocalPage)
    (space_key : String) (parent_id : Option String) :
    (∀ cid, page.metadata.confluence_id = some cid → cid ≠ "" →
        page.metadata.version = none →
        (ensureRemotePage client conv page space_key parent_id).getPageCalls = 1) ∧
    (∀ v, page.metadata.version = some v →
        (ensureRemotePage client conv page space_key parent_id).getPageCalls = 0) ∧
    (page.metadata.confluence_id = none →
        (ensureRemotePage client conv page space_key parent_id).getPageCalls = 0) := by
  refine ⟨?_, ?_, ?_⟩
  · intro cid hcid hne hver
    simp [ensureRemotePage, hcid, hver, strOptTruthy_some hne]
  · intro v hver
    by_cases hid : strOptTruthy page.metadata.confluence_id = true
    · simp [ensureRemotePage, hid, hver]
    · simp [ensureRemotePage, hid]
  · intro hid
    simp [ensureRemotePage, hid, strOptTruthy]

/-- C9 witness: on the concrete client, a page with identifier 55 and no
version costs one fetch, and the same page with version 3 costs none. -/
theorem c9_witness :
    (ensureRemotePage exClient exConv exPageWithId "SP" none).getPageCalls = 1 ∧
    (ensureRemotePage exClient exConv exPageWithVer "SP" none).getPageCalls = 0 :=
  ⟨(c9_version_fetch exClient exConv exPageWithId "SP" none).1 "55" rfl
      (by decide) rfl,
    (c9_version_fetch exClient exConv exPageWithVer "SP" none).2.1 3 rfl⟩

theorem ensureRemotePage_meta (client : Client) (conv : Converter)
    (page : LocalPage) (sk : String) (pid : Option String) :
    (ensureRemotePage client conv page sk pid).page.metadata.confluence_id =
        some (ensureRemotePage client conv page sk pid).remote.id ∧
      (ensureRemotePage client conv page sk pid).page.metadata.version =
        some (ensureRemotePage client conv page sk pid).remote.version := by
  simp [ensureRemotePage, LocalPage.metadata]

theorem ensureRemotePage_id_ne (client : Client) (conv : Converter)
    (page : LocalPage) (sk : String) (pid : Option String)
    (hids : ClientIdsNonempty client) :
    (ensureRemotePage client conv page sk pid).remote.id ≠ "" := by
  by_cases hid : strOptTruthy page.metadata.confluence_id = true
  · cases hver : page.metadata.version with
    | none => simpa [ensureRemotePage, hid, hver] using hids.1 _ _ _ _ _ _ _
    | some v => simpa [ensureRemotePage, hid, hver] using hids.1 _ _ _ _ _ _ _
  · simpa [ensureRemotePage, hid] using hids.2 _ _ _ _ _

theorem ensureRemotePage_submitted (client : Client) (conv : Converter)
    (page : LocalPage) (sk : String) (pid : Option String) :
    (ensureRemotePage client conv page sk pid).submittedParent =
      pyOr pid page.metadata.parent_id := by
  simp [ensureRemotePage]

theorem foldr_add_zero (l : List Nat) (h : ∀ x ∈ l, x = 0) :
    l.foldr (· + ·) 0 = 0 := by
  induction l with
  | nil => rfl
  | cons a rest ih =>
      have ha := h a (List.mem_cons_self _ _)
      have := ih (fun x hx => h x (List.mem_cons_of_mem _ hx))
      simp [ha, this]

/-- Classification computed by the embedded _upload_subtree: because
_ensure_remote_page has already written the remote identifier and the
remote version into the metadata record that the created and updated
tests read, both counters are zero for every page of the subtree, as
long as the client assigns nonempty identifiers. -/
theorem uploadSubtree_counts_zero (client : Client) (conv : Converter)
    (space_key : String) (hids : ClientIdsNonempty client) :
    ∀ (page : LocalPage) (parent_id : Option String),
      (uploadSubtree client conv page space_key parent_id).1.created_pages = 0 ∧
      (uploadSubtree client conv page space_key parent_id).1.updated_pages = 0 := by
  intro page
  induction page using LocalPage.my_ind with
  | h m b cs ih =>
      intro pid
      have hmeta := ensureRemotePage_meta client conv (.mk m b cs) space_key pid
      have hne := ensureRemotePage_id_ne client conv (.mk m b cs) space_key pid hids
      rw [uploadSubtree]
      simp only [hmeta.1, hmeta.2, LocalPage.children]
      constructor
      · rw [foldr_add_zero]
        · simp [strOptTruthy_some hne]
        · intro x hx
          simp only [List.map_map, List.mem_map] at hx
          obtain ⟨⟨c, hc⟩, _, rfl⟩ := hx
          exact (ih c hc _).1
      · rw [foldr_add_zero]
        · simp
        · intro x hx
          simp only [List.map_map, List.mem_map] at hx
          obtain ⟨⟨c, hc⟩, _, rfl⟩ := hx
          exact (ih c hc _).2

/-- C1: what the code computes is not the three-way classification the
specification describes: for every local tree and every client that
assigns nonempty identifiers, the created and updated counters of both
upload_tree and _upload_subtree are zero, because the classification
reads the metadata record after _ensure_remote_page has overwritten it
in place.  In particular a freshly created page is never counted as
created. -/
theorem c1_classification_always_zero (client : Client) (conv : Converter)
    (space_key : String) (hids : ClientIdsNonempty client) :
    (∀ (page : LocalPage) (parent_id : Option String),
      (uploadSubtree client conv page space_key parent_id).1.created_pages = 0 ∧
      (uploadSubtree client conv page space_key parent_id).1.updated_pages = 0) ∧
    (∀ (root : LocalPage) (parent_page_id : Option String),
      (uploadTree client conv root space_key parent_page_id).1.created_pages = 0 ∧
      (uploadTree client conv root space_key parent_page_id).1.updated_pages = 0) := by
  refine ⟨uploadSubtree_counts_zero client conv space_key hids, ?_⟩
  intro root ppid
  have hmeta := ensureRemotePage_meta client conv root space_key
    (pyOr ppid root.metadata.parent_id)
  constructor
  · simp only [uploadTree]
    rw [foldr_add_zero]
    · simp [hmeta.1]
    · intro x hx
      simp only [List.map_map, List.mem_map] at hx
      obtain ⟨c, _, rfl⟩ := hx
      exact (uploadSubtree_counts_zero client conv space_key hids c _).1
  · simp only [uploadTree]
    rw [foldr_add_zero]
    · simp [hmeta.1, hmeta.2]
    · intro x hx
      simp only [List.map_map, List.mem_map] at hx
      obtain ⟨c, _, rfl⟩ := hx
      exact (uploadSubtree_counts_zero client conv space_key hids c _).2

/-- C1 witness: uploading a freshly created local page with no remote
identifier against the concrete client reports zero created pages, where
the specification demands one. -/
theorem c1_witness :
    (uploadSubtree exClient exConv exPageFresh "SP" none).1.created_pages = 0 ∧
    (uploadSubtree exClient exConv exPageFresh "SP" none).1.updated_pages = 0 :=
  c1_classification_always_zero exClient exConv "SP"
    (by
      constructor
      · intro a b c d e f g
        by_cases ha : a = "" <;> simp [exClient, exRemote, ha]
      · intro a b c d e
        simp [exClient, exRemote]) |>.1 exPageFresh none

theorem uploadSubtree_log_submitted (client : Client) (conv : Converter)
    (page : LocalPage) (sk : String) (pid : Option String) :
    (uploadSubtree client conv page sk pid).2.submittedParent =
      pyOr pid page.metadata.parent_id := by
  rw [uploadSubtree]
  simp only [UpLog.submittedParent]
  exact ensureRemotePage_submitted client conv page sk pid

/-- Every node of the upload log submitted exactly the remote identifier
just assigned to its parent, for an arbitrary starting parent argument. -/
theorem uploadSubtree_linked (client : Client) (conv : Converter) (sk : String)
    (hids : ClientIdsNonempty client) :
    ∀ (page : LocalPage) (pid : Option String),
      ParentsLinked (uploadSubtree client conv page sk pid).2 := by
  intro page
  induction page using LocalPage.my_ind with
  | h m b cs ih =>
      intro pid
      rw [uploadSubtree]
      apply ParentsLinked.mk
      · intro c hc
        simp only [LocalPage.children, List.map_map, List.mem_map] at hc
        obtain ⟨⟨cc, hcc⟩, _, rfl⟩ := hc
        simp only [Function.comp_apply]
        rw [uploadSubtree_log_submitted]
        have hne := ensureRemotePage_id_ne client conv (.mk m b cs) sk pid hids
        exact pyOr_some hne _
      · intro c hc
        simp only [LocalPage.children, List.map_map, List.mem_map] at hc
        obtain ⟨⟨cc, hcc⟩, _, rfl⟩ := hc
        exact ih cc hcc _

/-- C5: in the embedded upload walk, for every non-root page the parent
identifier submitted to the remote call is exactly the remote identifier
assigned to the parent page earlier in the same pass (never the value
cached in the page metadata, which the statement quantifies over), and
for the root a truthy caller-supplied parent identifier overrides the
cached metadata value. -/
theorem c5_parent_propagation (client : Client) (conv : Converter)
    (root : LocalPage) (space_key : String) (parent_page_id : Option String)
    (hids : ClientIdsNonempty client) :
    ParentsLinked (uploadTree client conv root space_key parent_page_id).2 ∧
    (∀ p, parent_page_id = some p → p ≠ "" →
        (uploadTree client conv root space_key parent_page_id).2.submittedParent =
          some p) := by
  constructor
  · simp only [uploadTree]
    apply ParentsLinked.mk
    · intro c hc
      simp only [List.map_map, List.mem_map] at hc
      obtain ⟨cc, hcc, rfl⟩ := hc
      simp only [Function.comp_apply]
      rw [uploadSubtree_log_submitted]
      have hne := ensureRemotePage_id_ne client conv root space_key
        (pyOr parent_page_id root.metadata.parent_id) hids
      exact pyOr_some hne _
    · intro c hc
      simp only [List.map_map, List.mem_map] at hc
      obtain ⟨cc, hcc, rfl⟩ := hc
      exact uploadSubtree_linked client conv space_key hids cc _
  · intro p hp hpne
    subst hp
    simp only [uploadTree, UpLog.submittedParent]
    rw [ensureRemotePage_submitted, pyOr_some hpne, pyOr_some hpne]

/-- C5 witness: uploading the concrete root, A, B chain (each carrying a
stale cached parent identifier) against the concrete client yields a
fully linked log, and the caller-supplied root parent 99 overrides the
stale cached value. -/
theorem c5_witness :
    ParentsLinked (uploadTree exClient exConv exTreeRootAB "SP" (some "99")).2 ∧
    (uploadTree exClient exConv exTreeRootAB "SP" (some "99")).2.submittedParent =
      some "99" := by
  have hids : ClientIdsNonempty exClient := by
    constructor
    · intro a b c d e f g
      by_cases ha : a = "" <;> simp [exClient, exRemote, ha]
    · intro a b c d e
      simp [exClient, exRemote]
  exact ⟨(c5_parent_propagation exClient exConv exTreeRootAB "SP" (some "99") hids).1,
    (c5_parent_propagation exClient exConv exTreeRootAB "SP" (some "99") hids).2
      "99" rfl (by decide)⟩

/-- C2: evaluation at the failing input.  With repository root /a/repo,
the sibling path /a/repo-evil resolves outside the root, yet
resolve_page_directory accepts it and returns the escaped directory,
because the guard is a string prefix test (startswith) and the string
/a/repo is a prefix of the string /a/repo-evil.  The specification
requires rejection of every path not inside the root. -/
theorem c2_path_prefix_bug :
    resolvePageDirectory exFsAll ["a", "repo"] (.abs ["a", "repo-evil"]) =
      .ok ["a", "repo-evil"] ∧
    insideRoot (normalizeComps ["a", "repo"]) (normalizeComps ["a", "repo-evil"]) =
      false := by
  constructor
  · decide
  · decide

theorem alookup_isSome_cons {β : Type} (key k : String) (v : β) (l : List (String × β)) :
    (alookup key ((k, v) :: l)).isSome = true ↔
      (k = key ∨ (alookup key l).isSome = true) := by
  by_cases h : k = key <;> simp [alookup, h]

/-- Abort behaviour of the descendant loop: when the descendants up to
index k have locatable parents and the descendant at index k does not,
the loop stops with the error set, having appended to the write log
exactly the first k descendant files and nothing more. -/
theorem writeTreeGo_abort (conv : String → String)
    (existing : String → Option (List String)) :
    ∀ (ds : List PageContent) (st : WriteState) (avail : List String) (k : Nat)
      (hk : k < ds.length),
      (∀ pid, (alookup pid st.idToDir).isSome = true ↔ pid ∈ avail) →
      (∀ i, ∀ hik : i < k, ∃ pid,
          (ds.get ⟨i, Nat.lt_trans hik hk⟩).parent_id = some pid ∧
            (pid ∈ avail ∨ pid ∈ (ds.take i).map (·.id) ∨
              (existing pid).isSome = true)) →
      (∀ pid, (ds.get ⟨k, hk⟩).parent_id = some pid →
          ¬(pid ∈ avail ∨ pid ∈ (ds.take k).map (·.id) ∨
              (existing pid).isSome = true)) →
      ((writeTreeGo conv existing ds st).err).isSome = true ∧
      (writeTreeGo conv existing ds st).log.map (·.2) =
        st.log.map (·.2) ++ (ds.take k).map (dumpFile conv) := by
  intro ds
  induction ds with
  | nil =>
      intro st avail k hk
      exact absurd hk (Nat.not_lt_zero k)
  | cons p rest ih =>
      intro st avail k hk hkeys hloc hfail
      cases k with
      | zero =>
          rw [writeTreeGo]
          cases hp : p.parent_id with
          | none =>
              simp only [hp]
              simp
          | some pid =>
              have hf := hfail pid hp
              push_neg at hf
              obtain ⟨h1, _, h3⟩ := hf
              have halo : alookup pid st.idToDir = none := by
                cases halo : alookup pid st.idToDir with
                | none => rfl
                | some d =>
                    exact absurd ((hkeys pid).mp (by rw [halo]; rfl)) h1
              have hex : existing pid = none := by
                cases hex : existing pid with
                | none => rfl
                | some d => rw [hex] at h3; exact absurd rfl h3
              simp only [hp, halo, hex]
              simp
      | succ k' =>
          obtain ⟨pid, hp, hmem⟩ := hloc 0 (Nat.succ_pos k')
          have hmem' : pid ∈ avail ∨ (existing pid).isSome = true := by
            simpa using hmem
          have hk' : k' < rest.length := Nat.lt_of_succ_lt_succ hk
          have hpdir : ∃ pdir, (match alookup pid st.idToDir with
              | some d => some d
              | none => existing pid) = some pdir := by
            cases halo : alookup pid st.idToDir with
            | some d => exact ⟨d, rfl⟩
            | none =>
                rcases hmem' with hm | hm
                · exact absurd ((hkeys pid).mpr hm) (by rw [halo]; simp)
                · cases hex : existing pid with
                  | none => rw [hex] at hm; simp at hm
                  | some d => exact ⟨d, rfl⟩
          obtain ⟨pdir, hpdir⟩ := hpdir
          have hp' : p.parent_id = some pid := hp
          have happly : ∀ (path : List String) (tree' : DirTree)
              (usage' : List (List String × List String)),
              ((writeTreeGo conv existing rest
                  { tree := tree'
                    idToDir := (p.id, path) :: st.idToDir
                    usage := usage'
                    log := st.log ++ [(path, dumpFile conv p)]
                    err := none }).err).isSome = true ∧
              (writeTreeGo conv existing rest
                  { tree := tree'
                    idToDir := (p.id, path) :: st.idToDir
                    usage := usage'
                    log := st.log ++ [(path, dumpFile conv p)]
                    err := none }).log.map (·.2) =
                st.log.map (·.2) ++ ((p :: rest).take (k' + 1)).map (dumpFile conv) := by
            intro path tree' usage'
            have hres := ih
              { tree := tree'
                idToDir := (p.id, path) :: st.idToDir
                usage := usage'
                log := st.log ++ [(path, dumpFile conv p)]
                err := none }
              (p.id :: avail) k' hk'
              (by
                intro q
                rw [show alookup q ((p.id, path) :: st.idToDir) =
                  alookup q ((p.id, path) :: st.idToDir) from rfl]
                rw [alookup_isSome_cons]
                simp [hkeys q, List.mem_cons, eq_comm])
              (by
                intro i hik
                obtain ⟨q, hq, hqm⟩ := hloc (i + 1) (Nat.succ_lt_succ hik)
                refine ⟨q, hq, ?_⟩
                simp only [List.take_succ_cons, List.map_cons, List.mem_cons] at hqm
                simp only [List.mem_cons]
                tauto)
              (by
                intro q hq
                have := hfail q hq
                intro hcon
                apply this
                simp only [List.take_succ_cons, List.map_cons, List.mem_cons]
                simp only [List.mem_cons] at hcon
                tauto)
            refine ⟨hres.1, ?_⟩
            rw [hres.2]
            simp [List.take_succ_cons]
          rw [writeTreeGo]
          simp only [hp', hpdir]
          cases hexi : existing p.id with
          | some d =>
              simp only [hexi]
              exact happly d (st.tree.writeFileAt d (dumpFile conv p)) st.usage
          | none =>
              simp only [hexi]
              exact happly (pdir ++ [(uniqueSlug p.title (usageOf st.usage pdir)).1])
                (st.tree.insertChild pdir (uniqueSlug p.title (usageOf st.usage pdir)).1
                  (dumpFile conv p))
                (usageSet st.usage pdir (uniqueSlug p.title (usageOf st.usage pdir)).2)

/-- C8: when a descendant at index k declares a parent that matches
neither the root, nor a page written earlier in the call, nor an
existing directory of the pre-scan map, write_tree raises (the error
field is set), writes exactly the root file and the first k descendant
files, and writes nothing for the failing descendant or any later one;
the earlier writes remain in the final state. -/
theorem c8_write_tree_aborts (conv : String → String)
    (existing : String → Option (List String))
    (usage0 : List (List String × List String))
    (root : PageContent) (ds : List PageContent) (k : Nat) (hk : k < ds.length)
    (hloc : ∀ i, ∀ hik : i < k, ∃ pid,
        (ds.get ⟨i, Nat.lt_trans hik hk⟩).parent_id = some pid ∧
          (pid = root.id ∨ pid ∈ (ds.take i).map (·.id) ∨
            (existing pid).isSome = true))
    (hfail : ∀ pid, (ds.get ⟨k, hk⟩).parent_id = some pid →
        ¬(pid = root.id ∨ pid ∈ (ds.take k).map (·.id) ∨
            (existing pid).isSome = true)) :
    ((writeTree conv existing usage0 root ds).err).isSome = true ∧
    (writeTree conv existing usage0 root ds).log.map (·.2) =
      (root :: ds.take k).map (dumpFile conv) := by
  have hres := writeTreeGo_abort conv existing ds
    { tree := .mk (dumpFile conv root) []
      idToDir := [(root.id, [])]
      usage := usage0
      log := [([], dumpFile conv root)]
      err := none }
    [root.id] k hk
    (by
      intro pid
      by_cases h : root.id = pid
      · simp [alookup, h, eq_comm]
      · simp [alookup, h]
        exact fun he => h he.symm)
    (by
      intro i hik
      obtain ⟨pid, hp, hm⟩ := hloc i hik
      refine ⟨pid, hp, ?_⟩
      simpa using hm)
    (by
      intro pid hp
      have hg := hfail pid hp
      intro hcon
      apply hg
      simpa using hcon)
  have heq : writeTree conv existing usage0 root ds =
      writeTreeGo conv existing ds
        { tree := .mk (dumpFile conv root) []
          idToDir := [(root.id, [])]
          usage := usage0
          log := [([], dumpFile conv root)]
          err := none } := rfl
  rw [heq]
  refine ⟨hres.1, ?_⟩
  rw [hres.2]
  simp

/-- C8 witness: with root id 1 and descendants A (parent 1) then X
(parent 404, unknown), write_tree sets the error and the write log holds
exactly the root file and the file of A. -/
theorem c8_witness :
    ((writeTree id (fun _ => none) [] (exRemote "1" 1)
        [exRemoteChild "2" "1", exRemoteChild "3" "404"]).err).isSome = true ∧
    (writeTree id (fun _ => none) [] (exRemote "1" 1)
        [exRemoteChild "2" "1", exRemoteChild "3" "404"]).log.map (·.2) =
      ((exRemote "1" 1) ::
          ([exRemoteChild "2" "1", exRemoteChild "3" "404"].take 1)).map
        (dumpFile id) :=
  c8_write_tree_aborts id (fun _ => none) [] (exRemote "1" 1)
    [exRemoteChild "2" "1", exRemoteChild "3" "404"] 1 (by decide)
    (by
      intro i hik
      interval_cases i
      exact ⟨"1", rfl, Or.inl rfl⟩)
    (by
      intro pid hp
      simp only [List.get] at hp
      have hpid : pid = "404" := by
        have h4 : (exRemoteChild "3" "404").parent_id = some "404" := rfl
        rw [h4] at hp
        exact (Option.some.injEq _ _ ▸ hp).symm
      subst hpid
      decide)

/-! ## Helper lemmas for the write and read tree round trip -/

theorem filesOf_mk (f : PageFile) (cs : List (String × DirTree)) :
    (DirTree.mk f cs).filesOf = f :: (cs.map fun c => c.2.filesOf).flatten := by
  rw [DirTree.filesOf]
  congr 1
  congr 1
  exact List.attach_map_coe cs (fun c => c.2.filesOf)

theorem edgesOf_mk (f : PageFile) (cs : List (String × DirTree)) :
    (DirTree.mk f cs).edgesOf =
      (cs.map fun c => (f, c.2.file)) ++ (cs.map fun c => c.2.edgesOf).flatten := by
  rw [DirTree.edgesOf]
  congr 2
  exact List.attach_map_coe cs (fun c => c.2.edgesOf)

theorem nodes_mk (m : LocalPageMetadata) (b : String) (cs : List LocalPage) :
    (LocalPage.mk m b cs).nodes =
      (m.confluence_id, m.title, b) :: (cs.map LocalPage.nodes).flatten := by
  rw [LocalPage.nodes]
  congr 1
  congr 1
  exact List.attach_map_coe cs LocalPage.nodes

theorem ledges_mk (m : LocalPageMetadata) (b : String) (cs : List LocalPage) :
    (LocalPage.mk m b cs).edges =
      (cs.map fun c => (m, c.metadata)) ++ (cs.map LocalPage.edges).flatten := by
  rw [LocalPage.edges]
  congr 2
  exact List.attach_map_coe cs LocalPage.edges

theorem readDirectory_mk (f : PageFile) (cs : List (String × DirTree)) :
    readDirectory (.mk f cs) =
      .mk (metaOfFile f) f.body ((childrenSorted cs).map fun c => readDirectory c.2) := by
  rw [readDirectory]
  congr 1
  exact List.attach_map_coe (childrenSorted cs) (fun c => readDirectory c.2)

theorem readDirectory_metadata (t : DirTree) :
    (readDirectory t).metadata = metaOfFile t.file := by
  cases t with
  | mk f cs => rw [readDirectory_mk]; rfl

theorem insertChild_file (t : DirTree) (ppath : List String) (name : String)
    (pf : PageFile) : (t.insertChild ppath name pf).file = t.file := by
  cases t with
  | mk f cs =>
      cases ppath with
      | nil =>
          rw [DirTree.insertChild]
          split <;> rfl
      | cons p ps =>
          rw [DirTree.insertChild]
          rfl

theorem replaceChild_keys (cs : List (String × DirTree)) (p : String)
    (g : DirTree → DirTree) :
    (replaceChild cs p g).map (·.1) = cs.map (·.1) := by
  induction cs with
  | nil => rfl
  | cons a rest ih =>
      rw [replaceChild]
      by_cases ha : a.1 = p <;> simp [ha, ih]

theorem find?_decomp {cs : List (String × DirTree)} {p : String}
    {c₀ : String × DirTree}
    (h : cs.find? (fun c => c.1 = p) = some c₀) :
    ∃ pre post, cs = pre ++ c₀ :: post ∧ (∀ c ∈ pre, c.1 ≠ p) ∧ c₀.1 = p ∧
      ∀ g : DirTree → DirTree,
        replaceChild cs p g = pre ++ (c₀.1, g c₀.2) :: post := by
  induction cs with
  | nil => simp at h
  | cons a rest ih =>
      rw [List.find?_cons] at h
      by_cases ha : a.1 = p
      · simp only [ha, decide_True] at h
        have hc : a = c₀ := by
          cases h
          rfl
        subst hc
        refine ⟨[], rest, by simp, by simp, ha, ?_⟩
        intro g
        rw [replaceChild]
        simp [ha]
      · rw [decide_eq_false ha] at h
        obtain ⟨pre, post, hcs, hpre, hc0, hrep⟩ := ih h
        refine ⟨a :: pre, post, by simp [hcs], ?_, hc0, ?_⟩
        · intro c hc
          rcases List.mem_cons.mp hc with hc | hc
          · exact hc ▸ ha
          · exact hpre c hc
        · intro g
          rw [replaceChild]
          simp [ha, hrep g]

theorem find?_append_cons_ne (pre post : List (String × DirTree))
    (pkey r : String) (hne : pkey ≠ r) (v : DirTree) :
    (pre ++ (pkey, v) :: post).find? (fun c => c.1 = r) =
      match pre.find? (fun c => c.1 = r) with
      | some c => some c
      | none => post.find? (fun c => c.1 = r) := by
  induction pre with
  | nil => simp [List.find?_cons, hne]
  | cons a rest ih =>
      rw [List.cons_append, List.find?_cons, List.find?_cons]
      by_cases ha : a.1 = r <;> simp [ha, ih]

theorem find?_none_of_forall_ne (l : List (String × DirTree)) (r : String)
    (h : ∀ c ∈ l, c.1 ≠ r) : l.find? (fun c => c.1 = r) = none := by
  induction l with
  | nil => rfl
  | cons a rest ih =>
      rw [List.find?_cons]
      have ha := h a (List.mem_cons_self _ _)
      rw [decide_eq_false ha]
      exact ih (fun c hc => h c (List.mem_cons_of_mem _ hc))

theorem perm_cons_middle {α : Type} (x : α) (A X B : List α) :
    (A ++ (x :: X) ++ B).Perm (x :: (A ++ X ++ B)) := by
  have h1 : A ++ (x :: X) ++ B = A ++ x :: (X ++ B) := by simp
  rw [h1]
  have h2 : (A ++ x :: (X ++ B)).Perm (x :: (A ++ (X ++ B))) := List.perm_middle
  have h3 : A ++ X ++ B = A ++ (X ++ B) := by simp
  rw [h3]
  exact h2

theorem any_eq_false_of_forall_ne (cs : List (String × DirTree)) (name : String)
    (h : ∀ c ∈ cs, c.1 ≠ name) : (cs.any fun c => c.1 = name) = false := by
  rw [List.any_eq_false]
  intro c hc
  simpa using h c hc

theorem leaf_filesOf (pf : PageFile) : (DirTree.mk pf []).filesOf = [pf] := by
  rw [filesOf_mk]
  rfl

theorem filesOf_insertChild (name : String) (pf : PageFile) :
    ∀ (ppath : List String) (t d₀ : DirTree),
      t.dirAt ppath = some d₀ →
      (∀ c ∈ d₀.children, c.1 ≠ name) →
      (t.insertChild ppath name pf).filesOf.Perm (pf :: t.filesOf) := by
  intro ppath
  induction ppath with
  | nil =>
      intro t d₀ hdir hfresh
      have ht : d₀ = t := by
        rw [DirTree.dirAt] at hdir
        cases hdir
        rfl
      subst ht
      cases d₀ with
      | mk f cs =>
          rw [DirTree.insertChild]
          have hany := any_eq_false_of_forall_ne cs name hfresh
          rw [hany]
          simp only [Bool.false_eq_true, if_false]
          rw [filesOf_mk, filesOf_mk]
          simp only [List.map_append, List.map_cons, List.map_nil,
            List.flatten_append, List.flatten_cons, List.flatten_nil,
            leaf_filesOf, List.append_nil]
          refine List.Perm.trans (List.Perm.cons f ?_) (List.Perm.swap pf f _)
          exact List.perm_append_singleton pf _
  | cons p ps ih =>
      intro t d₀ hdir hfresh
      cases t with
      | mk f cs =>
          rw [DirTree.dirAt] at hdir
          simp only [DirTree.children] at hdir
          cases hfind : cs.find? (fun c => c.1 = p) with
          | none =>
              rw [hfind] at hdir
              simp at hdir
          | some c₀ =>
              rw [hfind] at hdir
              simp only at hdir
              obtain ⟨pre, post, hcs, hpre, hc0, hrep⟩ := find?_decomp hfind
              rw [DirTree.insertChild, hrep]
              subst hcs
              rw [filesOf_mk, filesOf_mk]
              simp only [List.map_append, List.map_cons, List.flatten_append,
                List.flatten_cons]
              have hih := ih c₀.2 d₀ hdir hfresh
              refine List.Perm.trans (List.Perm.cons f ?_) (List.Perm.swap pf f _)
              have h1 := List.Perm.append_left ((pre.map fun c => c.2.filesOf).flatten)
                (List.Perm.append_right ((post.map fun c => c.2.filesOf).flatten) hih)
              refine h1.trans ?_
              have h2 := perm_cons_middle pf ((pre.map fun c => c.2.filesOf).flatten)
                c₀.2.filesOf ((post.map fun c => c.2.filesOf).flatten)
              simpa [List.append_assoc] using h2

theorem edgesOf_insertChild (name : String) (pf : PageFile) :
    ∀ (ppath : List String) (t d₀ : DirTree),
      t.dirAt ppath = some d₀ →
      (∀ c ∈ d₀.children, c.1 ≠ name) →
      ∀ e ∈ (t.insertChild ppath name pf).edgesOf,
        e ∈ t.edgesOf ∨ e = (d₀.file, pf) := by
  intro ppath
  induction ppath with
  | nil =>
      intro t d₀ hdir hfresh e he
      have ht : d₀ = t := by
        rw [DirTree.dirAt] at hdir
        cases hdir
        rfl
      subst ht
      cases d₀ with
      | mk f cs =>
          rw [DirTree.insertChild] at he
          have hany := any_eq_false_of_forall_ne cs name hfresh
          rw [hany] at he
          simp only [Bool.false_eq_true, if_false] at he
          rw [edgesOf_mk] at he
          rw [edgesOf_mk]
          simp only [List.map_append, List.map_cons, List.map_nil,
            List.flatten_append, List.flatten_cons, List.flatten_nil,
            List.append_nil, List.mem_append, List.mem_cons] at he
          have hleaf : (DirTree.mk pf []).edgesOf = [] := by
            rw [edgesOf_mk]
            rfl
          rcases he with (he | he | he) | (he | he)
          · exact Or.inl (List.mem_append.mpr (Or.inl he))
          · exact Or.inr (by simpa [DirTree.file] using he)
          · simp at he
          · exact Or.inl (List.mem_append.mpr (Or.inr he))
          · rw [hleaf] at he
            simp at he
  | cons p ps ih =>
      intro t d₀ hdir hfresh e he
      cases t with
      | mk f cs =>
          rw [DirTree.dirAt] at hdir
          simp only [DirTree.children] at hdir
          cases hfind : cs.find? (fun c => c.1 = p) with
          | none =>
              rw [hfind] at hdir
              simp at hdir
          | some c₀ =>
              rw [hfind] at hdir
              simp only at hdir
              obtain ⟨pre, post, hcs, hpre, hc0, hrep⟩ := find?_decomp hfind
              rw [DirTree.insertChild, hrep] at he
              subst hcs
              rw [edgesOf_mk] at he
              rw [edgesOf_mk]
              simp only [List.map_append, List.map_cons, List.flatten_append,
                List.flatten_cons, List.mem_append, List.mem_cons] at he ⊢
              rcases he with (he | he | he) | (he | he | he)
              · tauto
              · rw [insertChild_file] at he
                tauto
              · tauto
              · tauto
              · rcases ih c₀.2 d₀ hdir hfresh e he with hi | hi
                · tauto
                · exact Or.inr hi
              · tauto

theorem find?_append_none {l₁ l₂ : List (String × DirTree)}
    {p : String × DirTree → Bool} (h : l₁.find? p = none) :
    (l₁ ++ l₂).find? p = l₂.find? p := by
  induction l₁ with
  | nil => rfl
  | cons a rest ih =>
      rw [List.find?_cons] at h
      rw [List.cons_append, List.find?_cons]
      cases hp : p a with
      | true => rw [hp] at h; simp at h
      | false =>
          rw [hp] at h
          simp only
          exact ih h

theorem find?_append_some {l₁ l₂ : List (String × DirTree)}
    {p : String × DirTree → Bool} {c : String × DirTree}
    (h : l₁.find? p = some c) : (l₁ ++ l₂).find? p = some c := by
  induction l₁ with
  | nil => simp at h
  | cons a rest ih =>
      rw [List.find?_cons] at h
      rw [List.cons_append, List.find?_cons]
      cases hp : p a with
      | true => rw [hp] at h; simpa using h
      | false =>
          rw [hp] at h
          simp only
          exact ih h

theorem find?_modified_self (pre post : List (String × DirTree)) (p : String)
    (hpre : ∀ c ∈ pre, c.1 ≠ p) (v : DirTree) :
    (pre ++ (p, v) :: post).find? (fun c => c.1 = p) = some (p, v) := by
  rw [find?_append_none (find?_none_of_forall_ne pre p hpre)]
  rw [List.find?_cons]
  simp

theorem find?_modified_ne (pre post : List (String × DirTree)) (p r : String)
    (hne : p ≠ r) (v v' : DirTree) :
    (pre ++ (p, v) :: post).find? (fun c => c.1 = r) =
      (pre ++ (p, v') :: post).find? (fun c => c.1 = r) := by
  rw [find?_append_cons_ne pre post p r hne v,
    find?_append_cons_ne pre post p r hne v']

theorem leaf_namesAt (pf : PageFile) (rs : List String) :
    (DirTree.mk pf []).namesAt rs = [] := by
  cases rs with
  | nil =>
      rw [DirTree.namesAt, DirTree.dirAt]
      rfl
  | cons r rest =>
      rw [DirTree.namesAt, DirTree.dirAt]
      rfl

theorem dirAt_insert_new (name : String) (pf : PageFile) :
    ∀ (ppath : List String) (t d₀ : DirTree),
      t.dirAt ppath = some d₀ →
      (∀ c ∈ d₀.children, c.1 ≠ name) →
      (t.insertChild ppath name pf).dirAt (ppath ++ [name]) = some (.mk pf []) := by
  intro ppath
  induction ppath with
  | nil =>
      intro t d₀ hdir hfresh
      have ht : d₀ = t := by
        rw [DirTree.dirAt] at hdir
        cases hdir
        rfl
      subst ht
      cases d₀ with
      | mk f cs =>
          rw [DirTree.insertChild]
          have hany := any_eq_false_of_forall_ne cs name hfresh
          rw [hany]
          simp only [Bool.false_eq_true, if_false]
          rw [List.nil_append, DirTree.dirAt]
          simp only [DirTree.children]
          rw [find?_append_none (find?_none_of_forall_ne cs name hfresh)]
          rw [List.find?_cons]
          simp only [decide_True]
          rw [DirTree.dirAt]
  | cons p ps ih =>
      intro t d₀ hdir hfresh
      cases t with
      | mk f cs =>
          rw [DirTree.dirAt] at hdir
          simp only [DirTree.children] at hdir
          cases hfind : cs.find? (fun c => c.1 = p) with
          | none =>
              rw [hfind] at hdir
              simp at hdir
          | some c₀ =>
              rw [hfind] at hdir
              simp only at hdir
              obtain ⟨pre, post, hcs, hpre, hc0, hrep⟩ := find?_decomp hfind
              rw [DirTree.insertChild, hrep]
              rw [List.cons_append, DirTree.dirAt]
              simp only [DirTree.children]
              have hc0' : c₀.1 = p := hc0
              rw [hc0']
              rw [find?_modified_self pre post p hpre]
              simp only
              exact ih c₀.2 d₀ hdir hfresh

theorem fileAt_insert_preserved (name : String) (pf : PageFile) :
    ∀ (ppath : List String) (t d₀ : DirTree),
      t.dirAt ppath = some d₀ →
      (∀ c ∈ d₀.children, c.1 ≠ name) →
      ∀ q, (t.dirAt q).isSome = true →
        (t.insertChild ppath name pf).fileAt q = t.fileAt q := by
  intro ppath
  induction ppath with
  | nil =>
      intro t d₀ hdir hfresh q hq
      have ht : d₀ = t := by
        rw [DirTree.dirAt] at hdir
        cases hdir
        rfl
      subst ht
      cases d₀ with
      | mk f cs =>
          rw [DirTree.insertChild]
          have hany := any_eq_false_of_forall_ne cs name hfresh
          rw [hany]
          simp only [Bool.false_eq_true, if_false]
          cases q with
          | nil =>
              unfold DirTree.fileAt
              rw [DirTree.dirAt, DirTree.dirAt]
              rfl
          | cons r rs =>
              rw [DirTree.dirAt] at hq
              simp only [DirTree.children] at hq
              cases hfr : cs.find? (fun c => c.1 = r) with
              | none => rw [hfr] at hq; simp at hq
              | some cr =>
                  unfold DirTree.fileAt
                  rw [DirTree.dirAt, DirTree.dirAt]
                  simp only [DirTree.children]
                  rw [hfr, find?_append_some hfr]
  | cons p ps ih =>
      intro t d₀ hdir hfresh q hq
      cases t with
      | mk f cs =>
          rw [DirTree.dirAt] at hdir
          simp only [DirTree.children] at hdir
          cases hfind : cs.find? (fun c => c.1 = p) with
          | none =>
              rw [hfind] at hdir
              simp at hdir
          | some c₀ =>
              rw [hfind] at hdir
              simp only at hdir
              obtain ⟨pre, post, hcs, hpre, hc0, hrep⟩ := find?_decomp hfind
              have hc0' : c₀ = (p, c₀.2) := by
                cases c₀ with
                | mk a b => simp at hc0 ⊢; exact hc0
              rw [DirTree.insertChild, hrep]
              cases q with
              | nil =>
                  unfold DirTree.fileAt
                  rw [DirTree.dirAt, DirTree.dirAt]
                  rfl
              | cons r rs =>
                  rw [DirTree.dirAt] at hq
                  simp only [DirTree.children] at hq
                  cases hfr : cs.find? (fun c => c.1 = r) with
                  | none => rw [hfr] at hq; simp at hq
                  | some cr =>
                      rw [hfr] at hq
                      simp only at hq
                      by_cases hrp : r = p
                      · subst hrp
                        rw [hfind] at hfr
                        have hcr : cr = c₀ := by
                          cases hfr
                          rfl
                        rw [hcr] at hq
                        unfold DirTree.fileAt
                        rw [DirTree.dirAt, DirTree.dirAt]
                        simp only [DirTree.children]
                        rw [hfind, hc0]
                        rw [find?_modified_self pre post _ hpre]
                        simp only
                        have hres := ih c₀.2 d₀ hdir hfresh rs hq
                        unfold DirTree.fileAt at hres
                        exact hres
                      · unfold DirTree.fileAt
                        rw [DirTree.dirAt, DirTree.dirAt]
                        simp only [DirTree.children]
                        have hcs' : cs = pre ++ (p, c₀.2) :: post := by
                          rw [hcs, ← hc0']
                        rw [hcs'] at hfr
                        rw [hcs']
                        rw [show c₀.1 = p from hc0]
                        rw [find?_modified_ne pre post p r (fun h => hrp h.symm)
                          (c₀.2.insertChild ps name pf) c₀.2]

theorem namesAt_insert_mem (name : String) (pf : PageFile) :
    ∀ (ppath : List String) (t d₀ : DirTree),
      t.dirAt ppath = some d₀ →
      (∀ c ∈ d₀.children, c.1 ≠ name) →
      ∀ q nm, nm ∈ (t.insertChild ppath name pf).namesAt q →
        nm ∈ t.namesAt q ∨ (q = ppath ∧ nm = name) := by
  intro ppath
  induction ppath with
  | nil =>
      intro t d₀ hdir hfresh q nm hnm
      have ht : d₀ = t := by
        rw [DirTree.dirAt] at hdir
        cases hdir
        rfl
      subst ht
      cases d₀ with
      | mk f cs =>
          rw [DirTree.insertChild] at hnm
          have hany := any_eq_false_of_forall_ne cs name hfresh
          rw [hany] at hnm
          simp only [Bool.false_eq_true, if_false] at hnm
          cases q with
          | nil =>
              rw [DirTree.namesAt, DirTree.dirAt] at hnm ⊢
              simp only [DirTree.children, List.map_append, List.map_cons,
                List.map_nil, List.mem_append, List.mem_cons] at hnm
              rcases hnm with hnm | hnm | hnm
              · exact Or.inl (by simpa using hnm)
              · exact Or.inr ⟨rfl, hnm⟩
              · simp at hnm
          | cons r rs =>
              rw [DirTree.namesAt, DirTree.dirAt] at hnm
              simp only [DirTree.children] at hnm
              cases hfr : cs.find? (fun c => c.1 = r) with
              | some cr =>
                  rw [find?_append_some hfr] at hnm
                  rw [DirTree.namesAt, DirTree.dirAt]
                  simp only [DirTree.children]
                  rw [hfr]
                  exact Or.inl hnm
              | none =>
                  rw [find?_append_none hfr] at hnm
                  rw [List.find?_cons] at hnm
                  by_cases hrn : name = r
                  · simp only [hrn, decide_True] at hnm
                    exfalso
                    have h2 : nm ∈ (DirTree.mk pf [] : DirTree).namesAt rs := by
                      rw [DirTree.namesAt]
                      exact hnm
                    rw [leaf_namesAt] at h2
                    simp at h2
                  · rw [decide_eq_false hrn] at hnm
                    simp at hnm
  | cons p ps ih =>
      intro t d₀ hdir hfresh q nm hnm
      cases t with
      | mk f cs =>
          rw [DirTree.dirAt] at hdir
          simp only [DirTree.children] at hdir
          cases hfind : cs.find? (fun c => c.1 = p) with
          | none =>
              rw [hfind] at hdir
              simp at hdir
          | some c₀ =>
              rw [hfind] at hdir
              simp only at hdir
              obtain ⟨pre, post, hcs, hpre, hc0, hrep⟩ := find?_decomp hfind
              have hc0' : c₀ = (p, c₀.2) := by
                cases c₀ with
                | mk a b => simp at hc0 ⊢; exact hc0
              rw [DirTree.insertChild, hrep] at hnm
              cases q with
              | nil =>
                  rw [DirTree.namesAt, DirTree.dirAt] at hnm ⊢
                  simp only [DirTree.children] at hnm ⊢
                  rw [hcs]
                  rw [show ((pre ++ (c₀.1, c₀.2.insertChild ps name pf) :: post).map (·.1)) =
                    (pre ++ c₀ :: post).map (·.1) from by simp] at hnm
                  exact Or.inl hnm
              | cons r rs =>
                  rw [DirTree.namesAt, DirTree.dirAt] at hnm
                  simp only [DirTree.children] at hnm
                  by_cases hrp : r = p
                  · subst hrp
                    rw [show c₀.1 = r from hc0] at hnm
                    rw [find?_modified_self pre post r hpre] at hnm
                    simp only at hnm
                    have hmem : nm ∈ (c₀.2.insertChild ps name pf).namesAt rs := by
                      rw [DirTree.namesAt]
                      exact hnm
                    rcases ih c₀.2 d₀ hdir hfresh rs nm hmem with hi | ⟨hq, hn⟩
                    · left
                      rw [DirTree.namesAt, DirTree.dirAt]
                      simp only [DirTree.children]
                      rw [hfind]
                      rw [DirTree.namesAt] at hi
                      exact hi
                    · right
                      exact ⟨by rw [hq], hn⟩
                  · left
                    rw [DirTree.namesAt, DirTree.dirAt]
                    simp only [DirTree.children]
                    have hcs' : cs = pre ++ (p, c₀.2) :: post := by
                      rw [hcs, ← hc0']
                    rw [hcs']
                    rw [show c₀.1 = p from hc0] at hnm
                    rw [find?_modified_ne pre post p r (fun h => hrp h.symm)
                      (c₀.2.insertChild ps name pf) c₀.2] at hnm
                    exact hnm

theorem flatten_map_perm_congr {α β : Type} (l l' : List α) (hp : l.Perm l')
    (f g : α → List β) (hfg : ∀ x ∈ l, (f x).Perm (g x)) :
    ((l.map f).flatten).Perm ((l'.map g).flatten) := by
  have h2 : ((l.map f).flatten).Perm ((l.map g).flatten) := by
    clear hp
    induction l with
    | nil => rfl
    | cons a rest ih =>
        simp only [List.map_cons, List.flatten_cons]
        exact List.Perm.append (hfg a (List.mem_cons_self _ _))
          (ih (fun x hx => hfg x (List.mem_cons_of_mem _ hx)))
  exact h2.trans ((hp.map g).flatten)

theorem readDirectory_nodes : ∀ t : DirTree,
    (readDirectory t).nodes.Perm (t.filesOf.map fileRecord) := by
  intro t
  induction t using DirTree.my_ind with
  | h f cs ih =>
      rw [readDirectory_mk, nodes_mk, filesOf_mk]
      simp only [List.map_cons, List.map_flatten, List.map_map]
      refine List.Perm.cons _ ?_
      exact flatten_map_perm_congr (childrenSorted cs) cs
        (List.mergeSort_perm cs _)
        (LocalPage.nodes ∘ fun c => readDirectory c.2)
        (List.map fileRecord ∘ fun c => c.2.filesOf)
        (fun c hc => ih c ((List.mergeSort_perm cs _).mem_iff.mp hc))

theorem readDirectory_edges : ∀ t : DirTree,
    (∀ e ∈ t.edgesOf, e.2.parent_id = some e.1.confluence_id) →
    ∀ e ∈ (readDirectory t).edges, e.2.parent_id = e.1.confluence_id := by
  intro t
  induction t using DirTree.my_ind with
  | h f cs ih =>
      intro hp e he
      rw [readDirectory_mk, ledges_mk] at he
      rcases List.mem_append.mp he with he | he
      · simp only [List.map_map, List.mem_map, Function.comp_apply] at he
        obtain ⟨cd, hcd, rfl⟩ := he
        have hcd' : cd ∈ cs := (List.mergeSort_perm cs _).mem_iff.mp hcd
        have hedge : (f, cd.2.file) ∈ (DirTree.mk f cs).edgesOf := by
          rw [edgesOf_mk]
          exact List.mem_append.mpr (Or.inl (List.mem_map.mpr ⟨cd, hcd', rfl⟩))
        have hpar := hp (f, cd.2.file) hedge
        rw [readDirectory_metadata]
        exact hpar
      · simp only [List.map_map, List.mem_flatten, List.mem_map] at he
        obtain ⟨l, ⟨cd, hcd, rfl⟩, hel⟩ := he
        have hcd' : cd ∈ cs := (List.mergeSort_perm cs _).mem_iff.mp hcd
        refine ih cd hcd' ?_ e ?_
        · intro e2 he2
          apply hp
          rw [edgesOf_mk]
          refine List.mem_append.mpr (Or.inr ?_)
          rw [List.mem_flatten]
          exact ⟨cd.2.edgesOf, List.mem_map.mpr ⟨cd, hcd', rfl⟩, he2⟩
        · simpa using hel

theorem alookup_mem {β : Type} {key : String} {l : List (String × β)} {v : β}
    (h : alookup key l = some v) : (key, v) ∈ l := by
  induction l with
  | nil => simp [alookup] at h
  | cons e rest ih =>
      rw [alookup] at h
      by_cases he : e.1 = key
      · rw [if_pos he] at h
        have hev : e = (key, v) := by
          cases e with
          | mk a b =>
              simp at he
              cases h
              rw [he]
        rw [← hev]
        exact List.mem_cons_self _ _
      · rw [if_neg he] at h
        exact List.mem_cons_of_mem _ (ih h)

theorem usageOf_usageSet (u : List (List String × List String))
    (path q names : List String) :
    usageOf (usageSet u path names) q =
      if path = q then names else usageOf u q := by
  unfold usageOf usageSet
  rw [List.find?_cons]
  by_cases h : path = q
  · simp [h]
  · rw [show (decide ((path, names).1 = q)) = false from decide_eq_false h]
    simp [h]

/-- Main induction for the round trip: processing descendants whose
parents were all written earlier preserves the write invariant on an
empty repository. -/
theorem writeTreeGo_inv (conv : String → String) (rootPf : PageFile) :
    ∀ (ds written : List PageContent) (st : WriteState),
      WtInv conv rootPf written st →
      (∀ i, ∀ h : i < ds.length, ∃ pid,
          (ds.get ⟨i, h⟩).parent_id = some pid ∧
            (pid ∈ written.map (·.id) ∨ pid ∈ (ds.take i).map (·.id))) →
      WtInv conv rootPf (written ++ ds)
        (writeTreeGo conv (fun _ => none) ds st) := by
  intro ds
  induction ds with
  | nil =>
      intro written st hinv hpar
      simpa using hinv
  | cons p rest ih =>
      intro written st hinv hpar
      obtain ⟨pid, hp, hmem⟩ := hpar 0 (by simp)
      have hp' : p.parent_id = some pid := hp
      have hmem' : pid ∈ written.map (·.id) := by simpa using hmem
      have hsome : (alookup pid st.idToDir).isSome = true := (hinv.keys pid).mpr hmem'
      cases halo : alookup pid st.idToDir with
      | none => rw [halo] at hsome; simp at hsome
      | some pdir =>
          have hpair : (pid, pdir) ∈ st.idToDir := alookup_mem halo
          obtain ⟨pf₀, hfile, hcid⟩ := hinv.idd pid pdir hpair
          obtain ⟨d₀, hdir, hd₀f⟩ : ∃ d₀, st.tree.dirAt pdir = some d₀ ∧ d₀.file = pf₀ := by
            unfold DirTree.fileAt at hfile
            cases hd : st.tree.dirAt pdir with
            | none => rw [hd] at hfile; simp at hfile
            | some d =>
                rw [hd] at hfile
                simp at hfile
                exact ⟨d, rfl, hfile⟩
          have hslugfresh : (uniqueSlug p.title (usageOf st.usage pdir)).1 ∉
              usageOf st.usage pdir := uniqueSlug_fresh _ _
          have hfresh : ∀ c ∈ d₀.children,
              c.1 ≠ (uniqueSlug p.title (usageOf st.usage pdir)).1 := by
            intro c hc hceq
            apply hslugfresh
            apply hinv.names pdir
            rw [DirTree.namesAt, hdir]
            exact List.mem_map.mpr ⟨c, hc, hceq⟩
          have hstep : writeTreeGo conv (fun _ => none) (p :: rest) st =
              writeTreeGo conv (fun _ => none) rest
                { tree := st.tree.insertChild pdir
                    (uniqueSlug p.title (usageOf st.usage pdir)).1 (dumpFile conv p)
                  idToDir := (p.id, pdir ++
                    [(uniqueSlug p.title (usageOf st.usage pdir)).1]) :: st.idToDir
                  usage := usageSet st.usage pdir
                    (uniqueSlug p.title (usageOf st.usage pdir)).2
                  log := st.log ++ [(pdir ++
                    [(uniqueSlug p.title (usageOf st.usage pdir)).1], dumpFile conv p)]
                  err := none } := by
            rw [writeTreeGo]
            simp only [hp', halo]
          rw [hstep]
          have hinv' : WtInv conv rootPf (written ++ [p])
              { tree := st.tree.insertChild pdir
                  (uniqueSlug p.title (usageOf st.usage pdir)).1 (dumpFile conv p)
                idToDir := (p.id, pdir ++
                  [(uniqueSlug p.title (usageOf st.usage pdir)).1]) :: st.idToDir
                usage := usageSet st.usage pdir
                  (uniqueSlug p.title (usageOf st.usage pdir)).2
                log := st.log ++ [(pdir ++
                  [(uniqueSlug p.title (usageOf st.usage pdir)).1], dumpFile conv p)]
                err := none } := by
            constructor
            · rfl
            · rw [insertChild_file]
              exact hinv.root_file
            · intro pid' path' hmem''
              rcases List.mem_cons.mp hmem'' with hmm | hmm
              · have hnew := dirAt_insert_new
                  (uniqueSlug p.title (usageOf st.usage pdir)).1 (dumpFile conv p)
                  pdir st.tree d₀ hdir hfresh
                refine ⟨dumpFile conv p, ?_, ?_⟩
                · cases hmm
                  unfold DirTree.fileAt
                  rw [hnew]
                  rfl
                · cases hmm
                  rfl
              · obtain ⟨pf', hfile', hcid'⟩ := hinv.idd pid' path' hmm
                have hisSome : (st.tree.dirAt path').isSome = true := by
                  unfold DirTree.fileAt at hfile'
                  cases hd : st.tree.dirAt path' with
                  | none => rw [hd] at hfile'; simp at hfile'
                  | some d => simp
                refine ⟨pf', ?_, hcid'⟩
                rw [fileAt_insert_preserved
                  (uniqueSlug p.title (usageOf st.usage pdir)).1 (dumpFile conv p)
                  pdir st.tree d₀ hdir hfresh path' hisSome]
                exact hfile'
            · intro pid'
              rw [alookup_isSome_cons, hinv.keys pid']
              constructor
              · rintro (h | h)
                · simp [← h]
                · simp only [List.map_append, List.mem_append]
                  exact Or.inl h
              · intro h
                simp only [List.map_append, List.mem_append, List.map_cons,
                  List.map_nil, List.mem_cons] at h
                rcases h with h | h | h
                · exact Or.inr h
                · exact Or.inl h.symm
                · simp at h
            · have hperm := filesOf_insertChild
                (uniqueSlug p.title (usageOf st.usage pdir)).1 (dumpFile conv p)
                pdir st.tree d₀ hdir hfresh
              refine hperm.trans ?_
              refine (List.Perm.cons (dumpFile conv p) hinv.files).trans ?_
              have h2 := (List.perm_append_singleton (dumpFile conv p)
                (written.map (dumpFile conv))).symm
              refine h2.trans ?_
              simp
            · intro e he
              rcases edgesOf_insertChild
                (uniqueSlug p.title (usageOf st.usage pdir)).1 (dumpFile conv p)
                pdir st.tree d₀ hdir hfresh e he with hi | hi
              · exact hinv.edges e hi
              · rw [hi]
                show (dumpFile conv p).parent_id = some d₀.file.confluence_id
                rw [hd₀f, hcid]
                exact hp'
            · intro q nm hm
              rcases namesAt_insert_mem
                (uniqueSlug p.title (usageOf st.usage pdir)).1 (dumpFile conv p)
                pdir st.tree d₀ hdir hfresh q nm hm with hi | ⟨hq, hn⟩
              · have hold := hinv.names q nm hi
                rw [usageOf_usageSet]
                by_cases hqq : pdir = q
                · rw [if_pos hqq]
                  subst hqq
                  rw [show (uniqueSlug p.title (usageOf st.usage pdir)).2 =
                    (uniqueSlug p.title (usageOf st.usage pdir)).1 ::
                      usageOf st.usage pdir from rfl]
                  exact List.mem_cons_of_mem _ hold
                · rw [if_neg hqq]
                  exact hold
              · rw [usageOf_usageSet, if_pos hq.symm, hn]
                rw [show (uniqueSlug p.title (usageOf st.usage pdir)).2 =
                  (uniqueSlug p.title (usageOf st.usage pdir)).1 ::
                    usageOf st.usage pdir from rfl]
                exact List.mem_cons_self _ _
          have hpar' : ∀ i, ∀ h : i < rest.length, ∃ pid',
              (rest.get ⟨i, h⟩).parent_id = some pid' ∧
                (pid' ∈ (written ++ [p]).map (·.id) ∨
                  pid' ∈ (rest.take i).map (·.id)) := by
            intro i hi
            obtain ⟨pid', hq, hqm⟩ := hpar (i + 1) (Nat.succ_lt_succ hi)
            refine ⟨pid', hq, ?_⟩
            rcases hqm with h | h
            · left
              simp only [List.map_append, List.mem_append]
              exact Or.inl h
            · rw [List.take_succ_cons, List.map_cons] at h
              rcases List.mem_cons.mp h with h | h
              · left
                simp only [List.map_append, List.mem_append, List.map_cons,
                  List.map_nil]
                right
                simp [h]
              · right
                exact h
          have hgoal := ih (written ++ [p])
            { tree := st.tree.insertChild pdir
                (uniqueSlug p.title (usageOf st.usage pdir)).1 (dumpFile conv p)
              idToDir := (p.id, pdir ++
                [(uniqueSlug p.title (usageOf st.usage pdir)).1]) :: st.idToDir
              usage := usageSet st.usage pdir
                (uniqueSlug p.title (usageOf st.usage pdir)).2
              log := st.log ++ [(pdir ++
                [(uniqueSlug p.title (usageOf st.usage pdir)).1], dumpFile conv p)]
              err := none } hinv' hpar'
          rw [show (written ++ [p]) ++ rest = written ++ p :: rest from by simp] at hgoal
          exact hgoal

/-- C7: writing a root page and a parent-before-child ordered descendant
list (the order breadth-first traversal delivers) with pairwise distinct
identifiers into an empty repository and reading the tree back succeeds
and reproduces the same tree shape: the multiset of nodes (identifier,
title, body) equals the input pages with each body passed through the
storage to markdown converter, every structural parent-child edge of the
read tree agrees with the declared parent identifier of the child, and
the root of the read tree is the input root. -/
theorem c7_write_read_round_trip (conv : String → String) (root : PageContent)
    (ds : List PageContent)
    (hnd : ((root :: ds).map (·.id)).Nodup)
    (hpar : ∀ i, ∀ h : i < ds.length, ∃ pid,
        (ds.get ⟨i, h⟩).parent_id = some pid ∧
          (pid = root.id ∨ pid ∈ (ds.take i).map (·.id))) :
    (writeTree conv (fun _ => none) [] root ds).err = none ∧
    (readDirectory (writeTree conv (fun _ => none) [] root ds).tree).nodes.Perm
      ((root :: ds).map (pageRecord conv)) ∧
    (∀ e ∈ (readDirectory (writeTree conv (fun _ => none) [] root ds).tree).edges,
        e.2.parent_id = e.1.confluence_id) ∧
    (readDirectory (writeTree conv (fun _ => none) [] root ds).tree).metadata =
      metaOfFile (dumpFile conv root) := by
  clear hnd
  have hinv0 : WtInv conv (dumpFile conv root) [root]
      { tree := .mk (dumpFile conv root) []
        idToDir := [(root.id, [])]
        usage := []
        log := [([], dumpFile conv root)]
        err := none } := by
    constructor
    · rfl
    · rfl
    · intro pid path hmm
      rcases List.mem_cons.mp hmm with hmm | hmm
      · refine ⟨dumpFile conv root, ?_, ?_⟩
        · cases hmm
          unfold DirTree.fileAt
          rw [DirTree.dirAt]
          rfl
        · cases hmm
          rfl
      · simp at hmm
    · intro pid
      by_cases h : root.id = pid
      · simp [alookup, h, eq_comm]
      · simp [alookup, h]
        exact fun he => h he.symm
    · rw [leaf_filesOf]
      simp
    · intro e he
      rw [edgesOf_mk] at he
      simp at he
    · intro q nm hm
      rw [leaf_namesAt] at hm
      simp at hm
  have hpar' : ∀ i, ∀ h : i < ds.length, ∃ pid,
      (ds.get ⟨i, h⟩).parent_id = some pid ∧
        (pid ∈ ([root] : List PageContent).map (·.id) ∨
          pid ∈ (ds.take i).map (·.id)) := by
    intro i h
    obtain ⟨pid, hp, hm⟩ := hpar i h
    exact ⟨pid, hp, by simpa using hm⟩
  have hinv := writeTreeGo_inv conv (dumpFile conv root) ds [root]
    { tree := .mk (dumpFile conv root) []
      idToDir := [(root.id, [])]
      usage := []
      log := [([], dumpFile conv root)]
      err := none } hinv0 hpar'
  have heq : writeTree conv (fun _ => none) [] root ds =
      writeTreeGo conv (fun _ => none) ds
        { tree := .mk (dumpFile conv root) []
          idToDir := [(root.id, [])]
          usage := []
          log := [([], dumpFile conv root)]
          err := none } := rfl
  rw [heq]
  refine ⟨hinv.err_none, ?_, ?_, ?_⟩
  · refine (readDirectory_nodes _).trans ?_
    refine (hinv.files.map fileRecord).trans ?_
    rw [show ([root] ++ ds : List PageContent) = root :: ds from rfl]
    rw [List.map_map]
    exact List.Perm.of_eq (List.map_congr_left (fun p _ => rfl))
  · exact readDirectory_edges _ hinv.edges
  · rw [readDirectory_metadata, hinv.root_file]

/-- C7 witness: the concrete three-page chain with identifiers 1, 2, 3,
parent-linked in order, written with the identity converter, reads back
with the expected nodes, consistent edges, and the root metadata. -/
theorem c7_witness :
    (writeTree id (fun _ => none) [] (exRemote "1" 1)
        [exRemoteChild "2" "1", exRemoteChild "3" "2"]).err = none ∧
    (readDirectory (writeTree id (fun _ => none) [] (exRemote "1" 1)
        [exRemoteChild "2" "1", exRemoteChild "3" "2"]).tree).nodes.Perm
      (((exRemote "1" 1) :: [exRemoteChild "2" "1", exRemoteChild "3" "2"]).map
        (pageRecord id)) ∧
    (∀ e ∈ (readDirectory (writeTree id (fun _ => none) [] (exRemote "1" 1)
        [exRemoteChild "2" "1", exRemoteChild "3" "2"]).tree).edges,
        e.2.parent_id = e.1.confluence_id) ∧
    (readDirectory (writeTree id (fun _ => none) [] (exRemote "1" 1)
        [exRemoteChild "2" "1", exRemoteChild "3" "2"]).tree).metadata =
      metaOfFile (dumpFile id (exRemote "1" 1)) :=
  c7_write_read_round_trip id (exRemote "1" 1)
    [exRemoteChild "2" "1", exRemoteChild "3" "2"]
    (by decide)
    (by
      intro i h
      have h2 : i < 2 := h
      interval_cases i
      · exact ⟨"1", rfl, Or.inl rfl⟩
      · exact ⟨"2", rfl, Or.inr (by decide)⟩)

end AtlassianCli
